import Mathlib

/-! # qm-sprintf: a verification development for `sprintf.c`

The file embeds the minimal `sprintf` of `sprintf.c` (the Quark
microcontroller software interface) and proves properties of it.

Conventions of the embedding.

* A C `char` is a Lean `Char`; `NUL` is the character of code 0.
* A C string in memory is the list of the bytes stored from its address on.
  The byte after the last listed one is the closing NUL, and nothing is
  known of the memory after it; a NUL inside the list ends the string early
  and the listed bytes after it are the memory that follows the string.
* The output cursor `char **str` is the list of the characters stored
  through it so far, in order; storing appends.
* `int` is `Int`, wrapped to 32 bits by `wrapInt32` where the source can
  leave the range (the field width, the negation of the argument of `%d`);
  `unsigned int` is `Nat` below `2 ^ 32`.
* The counters `len` count characters stored in the destination object, so
  they stay below `2 ^ 31` on the ILP32 target and are natural numbers.
* The static `format_buf` is explicit state: a function from index to
  character, threaded through every call.
* `none` is an execution that leaves the model: an argument of the wrong
  kind or a missing one, a store beyond `format_buf`, a read beyond the
  listed bytes of the format.
-/

namespace QmSprintf

/-! ## Machine arithmetic -/

/-- The character of code 0, the string terminator. -/
def NUL : Char := Char.ofNat 0

/-- Reduction of an integer to the range of a 32-bit `int`. -/
def wrapInt32 (x : Int) : Int := (x + 2147483648) % 4294967296 - 2147483648

/-- Conversion of an `int` to `unsigned int`. -/
def toUInt32 (x : Int) : Nat := (x % 4294967296).toNat

/-- Conversion to the (signed, 8-bit) type `char` of the i586 target. -/
def toSChar (x : Int) : Int := (x + 128) % 256 - 128

/-- The character whose byte is the low 8 bits of `x`. -/
def charOfInt (x : Int) : Char := Char.ofNat (x % 256).toNat

/-! ## The argument list -/

/-- One variadic argument: an `int`, an `unsigned int`, or a pointer to a
string (given by the bytes stored there). -/
inductive Arg where
  | int (n : Int)
  | uint (u : Nat)
  | str (s : List Char)
  deriving DecidableEq, Repr

/-! ## `sprintf.c` -/

/-- The capacity of the digit scratch buffer. -/
def FORMAT_BUF_SIZE : Nat := 32

/-- The function `last_digit_to_char`:
`c = n % base; if (c <= 9) return c + '0'; return upcase ? c + ('A' - 10) : c + ('a' - 10);` -/
def last_digit_to_char (n : Nat) (base : Nat) (upcase : Bool) : Char :=
  let c : Int := toSChar ((n % base : Nat) : Int)
  if c ≤ 9 then charOfInt (c + ('0'.toNat : Int))
  else if upcase then charOfInt (c + (('A'.toNat : Int) - 10))
  else charOfInt (c + (('a'.toNat : Int) - 10))

/-- The function `str_putc`: store `c` at the cursor, advance it, return 1. -/
def str_putc (str : List Char) (c : Char) : List Char × Nat := (str ++ [c], 1)

/-- The statement `len += str_putc(str, c)` on the pair of the cursor and `len`. -/
def put (p : List Char × Nat) (c : Char) : List Char × Nat :=
  ((str_putc p.1 c).1, p.2 + (str_putc p.1 c).2)

/-- The loop `do { s[i++] = last_digit_to_char(n, base, upcase); n /= base; } while (n > 0);`
of `str_putint`. The first argument is the room left in `format_buf`: with
none left the store `s[i]` is beyond the buffer. The result is the buffer and `i`. -/
def digit_loop : Nat → (Nat → Char) → Nat → Nat → Nat → Bool → Option ((Nat → Char) × Nat)
  | 0, _, _, _, _, _ => none
  | room + 1, s, i, n, base, upcase =>
    let s1 := Function.update s i (last_digit_to_char n base upcase)
    let n1 := n / base
    if n1 > 0 then digit_loop room s1 (i + 1) n1 base upcase else some (s1, i + 1)

/-- The loop `for (k = pad_len - i; k > 0; k--) len += str_putc(str, pad);`,
by recursion on `k`. -/
def pad_loop : Nat → List Char × Nat → Char → List Char × Nat
  | 0, p, _ => p
  | k + 1, p, pad => pad_loop k (put p pad) pad

/-- The loop `for (k = i - 1; k >= 0; k--) len += str_putc(str, s[k]);`,
by recursion on `k + 1`. -/
def emit_loop : Nat → (Nat → Char) → List Char × Nat → List Char × Nat
  | 0, _, p => p
  | k + 1, s, p => emit_loop k s (put p (s k))

/-- The function `str_putint`. The result is the scratch buffer as the call
leaves it, the cursor, and the returned count. -/
def str_putint (format_buf : Nat → Char) (str : List Char) (n : Nat) (base : Nat)
    (upcase sign : Bool) (pad : Char) (pad_len : Int) :
    Option ((Nat → Char) × List Char × Nat) :=
  match digit_loop FORMAT_BUF_SIZE format_buf 0 n base upcase with
  | none => none
  | some (s, i) =>
    let p0 : List Char × Nat := (str, 0)
    let p1 := if sign && pad == '0' then put p0 '-' else p0
    let pad_len1 : Int := if sign then wrapInt32 (pad_len - 1) else pad_len
    let p2 := if pad_len1 > (i : Int) then pad_loop (pad_len1 - (i : Int)).toNat p1 pad else p1
    let p3 := if sign && pad != '0' then put p2 '-' else p2
    let p4 := emit_loop i s p3
    some (s, p4.1, p4.2)

/-- The loop `for (; *s; s++) len += str_putc(str, *s);` of `str_putchars`. -/
def str_putchars_loop : List Char → List Char × Nat → List Char × Nat
  | [], p => p
  | c :: s, p => if c = NUL then p else str_putchars_loop s (put p c)

/-- The function `str_putchars`: the cursor and the returned count. -/
def str_putchars (str : List Char) (s : List Char) : List Char × Nat :=
  str_putchars_loop s (str, 0)

/-- The test `c >= '0' && c <= '9'`. -/
def is_digit (c : Char) : Bool := decide ('0'.toNat ≤ c.toNat) && decide (c.toNat ≤ '9'.toNat)

/-- The expression `*s++` inside a directive: the character read and the
advanced pointer. At the end of the listed bytes the character read is the
closing NUL and the scan goes on beyond it, out of the model. -/
def next_char : List Char → Option (Char × List Char)
  | [] => none
  | c :: s => some (c, s)

/-- The loop `while (c >= '0' && c <= '9') { pad_len = pad_len * 10 + c - '0'; c = *s++; }`. -/
def width_loop : Char → List Char → Int → Option (Char × List Char × Int)
  | c, [], pad_len => if is_digit c then none else some (c, [], pad_len)
  | c, c1 :: s, pad_len =>
    if is_digit c then
      width_loop c1 s (wrapInt32 (pad_len * 10 + (c.toNat : Int) - ('0'.toNat : Int)))
    else some (c, c1 :: s, pad_len)

/-- Lines 118 to 137 of `sprintf`: after a `%`, the zero flag, the width and
the ignored `l`. The result is `pad`, `pad_len`, the conversion character `c`
and the pointer `s` after it. -/
def directive (s : List Char) : Option (Char × Int × Char × List Char) :=
  match next_char s with
  | none => none
  | some (c, s) =>
    match (if c = '0' then (next_char s).map (fun cs => ('0', cs)) else some (' ', c, s)) with
    | none => none
    | some (pad, c, s) =>
      match width_loop c s 0 with
      | none => none
      | some (c, s, pad_len) =>
        match (if c = 'l' then next_char s else some (c, s)) with
        | none => none
        | some (c, s) => some (pad, pad_len, c, s)

/-- The variables of `sprintf` and the static buffer: the format pointer `s`,
the output cursor `str`, the count `len`, the argument pointer `ap`. -/
structure State where
  s : List Char
  str : List Char
  len : Nat
  ap : List Arg
  format_buf : Nat → Char

/-- The statement `len += str_putc(&str, c)` of `sprintf`. -/
def State.putc (st : State) (c : Char) : State :=
  { st with str := (str_putc st.str c).1, len := st.len + (str_putc st.str c).2 }

/-- The statement `len += str_putint(&str, n, base, upcase, sign, pad, pad_len)`. -/
def State.putint (st : State) (ap : List Arg) (n : Nat) (base : Nat) (upcase sign : Bool)
    (pad : Char) (pad_len : Int) : Option State :=
  match str_putint st.format_buf st.str n base upcase sign pad pad_len with
  | none => none
  | some (b, str, k) => some { st with str := str, len := st.len + k, ap := ap, format_buf := b }

/-- The `switch (c)` of `sprintf`, lines 138 to 173. -/
def conversion (c pad : Char) (pad_len : Int) (st : State) : Option State :=
  if c = 'd' then
    match st.ap with
    | Arg.int n :: ap =>
      let n := wrapInt32 n
      if n ≥ 0 then st.putint ap (toUInt32 n) 10 false false pad pad_len
      else st.putint ap (toUInt32 (wrapInt32 (-n))) 10 false true pad pad_len
    | _ => none
  else if c = 'u' then
    match st.ap with
    | Arg.uint u :: ap => st.putint ap (u % 4294967296) 10 false false pad pad_len
    | _ => none
  else if c = 'X' ∨ c = 'x' then
    match st.ap with
    | Arg.uint u :: ap => st.putint ap (u % 4294967296) 16 (c == 'X') false pad pad_len
    | _ => none
  else if c = 's' then
    match st.ap with
    | Arg.str t :: ap =>
      let p := str_putchars st.str t
      some { st with str := p.1, len := st.len + p.2, ap := ap }
    | _ => none
  else if c = '%' then some (st.putc c)
  else some ((st.putc '%').putc c)

/-- The body of the `while (*s)` loop for the character `c = *s++`; `st.s` is
the pointer after `c`. -/
def sprintf_step (c : Char) (st : State) : Option State :=
  if c = '%' then
    match directive st.s with
    | none => none
    | some (pad, pad_len, c, s) => conversion c pad pad_len { st with s := s }
  else some (st.putc c)

/-- The loop `while (*s)` of `sprintf`, by recursion on a number of
iterations allowed; every iteration advances `s`, so the length of the
listed bytes plus one is always enough. -/
def sprintf_loop : Nat → State → Option State
  | 0, _ => none
  | fuel + 1, st =>
    match st.s with
    | [] => some st
    | c :: s =>
      if c = NUL then some st
      else
        match sprintf_step c { st with s := s } with
        | none => none
        | some st1 => sprintf_loop fuel st1

/-- The loop `while (*s)` run to its end. -/
def run (st : State) : Option State := sprintf_loop (st.s.length + 1) st

/-- The function `sprintf`: the characters stored in the destination, the
closing NUL included, and the returned count. The first argument is the
content of the static scratch buffer when the call starts. -/
def sprintf (format_buf : Nat → Char) (format : List Char) (ap : List Arg) :
    Option (List Char × Nat) :=
  match run ⟨format, [], 0, ap, format_buf⟩ with
  | none => none
  | some st => some ((str_putc st.str NUL).1, st.len)

/-- A scratch buffer of zero bytes, the content at program start. -/
def buf0 : Nat → Char := fun _ => NUL

/-! ## Reference notions used in the statements -/

/-- The digits of `n` in base `base`, least significant first, by recursion
on a bound of their number. -/
def digits_fuel : Nat → Nat → Nat → List Nat
  | 0, _, _ => []
  | f + 1, base, n => (n % base) :: (if n / base = 0 then [] else digits_fuel f base (n / base))

/-- The digits of `n` in base `base`, least significant first; zero has the
single digit 0. -/
def digits_of (base n : Nat) : List Nat := digits_fuel (n + 1) base n

/-- The character of a digit value: `0` to `9`, then the letters from `a` or `A`. -/
def digit_char (upcase : Bool) (d : Nat) : Char :=
  if d ≤ 9 then Char.ofNat (d + 48)
  else if upcase then Char.ofNat (d + 55) else Char.ofNat (d + 87)

/-- The numeral of `n` in base `base`, most significant digit first. -/
def numeral (base : Nat) (upcase : Bool) (n : Nat) : List Char :=
  ((digits_of base n).map (digit_char upcase)).reverse

/-- The value of a digit character, if it is one. -/
def digit_value (c : Char) : Option Nat :=
  if 48 ≤ c.toNat ∧ c.toNat ≤ 57 then some (c.toNat - 48)
  else if 97 ≤ c.toNat ∧ c.toNat ≤ 122 then some (c.toNat - 87)
  else if 65 ≤ c.toNat ∧ c.toNat ≤ 90 then some (c.toNat - 55)
  else none

/-- Place-value reading of a list of digit characters, most significant
first, from the value `acc` of the digits already read; `none` when a
character is not a digit of the base. -/
def parse_digits (base : Nat) : List Char → Nat → Option Nat
  | [], acc => some acc
  | c :: cs, acc =>
    match digit_value c with
    | none => none
    | some d => if d < base then parse_digits base cs (acc * base + d) else none

/-- The number a non-empty list of digit characters denotes in base `base`. -/
def parse_number (base : Nat) (cs : List Char) : Option Nat :=
  if cs = [] then none else parse_digits base cs 0

/-- The buffer `s` after the characters of a list are stored at the indices from `i` on. -/
def store (s : Nat → Char) (i : Nat) : List Char → (Nat → Char)
  | [] => s
  | c :: l => store (Function.update s i c) (i + 1) l

/-- The digit characters `str_putint` leaves in the scratch buffer, in the
order of their generation. -/
def scratch (base : Nat) (upcase : Bool) (n : Nat) : List Char :=
  (digits_of base n).map (fun d => last_digit_to_char d base upcase)

/-- The characters one call of `str_putint` stores: the sign before zero
padding, the padding, the sign after space padding, the digits most
significant first. -/
def rendered (n base : Nat) (upcase sign : Bool) (pad : Char) (pad_len : Int) : List Char :=
  (if sign && pad == '0' then ['-'] else []) ++
    List.replicate
      ((if sign then wrapInt32 (pad_len - 1) else pad_len) -
        ((scratch base upcase n).length : Int)).toNat pad ++
    (if sign && pad != '0' then ['-'] else []) ++ (scratch base upcase n).reverse

/-- The value of `pad_len` after the width loop has read the digits of a
list, from the value `acc`. -/
def width_acc : List Char → Int → Int
  | [], acc => acc
  | c :: cs, acc => width_acc cs (wrapInt32 (acc * 10 + (c.toNat : Int) - ('0'.toNat : Int)))

/-- The pad character a directive gets: `'0'` when the character after the
`%` is `'0'`, a space otherwise. -/
def pad_of (s : List Char) : Char := if s.head? = some '0' then '0' else ' '

/-- The field width `w` as it is written in a directive: in decimal without
a leading zero, and not at all when it is 0. -/
def decimal (w : Nat) : List Char := if w = 0 then [] else numeral 10 false w

/-- What one pass of the loop body may change: the format pointer does not
grow, characters are appended to the output and counted one for one, and at
most the first argument is taken. -/
structure Advance (st st1 : State) : Prop where
  s_le : st1.s.length ≤ st.s.length
  out : ∃ body : List Char, st1.str = st.str ++ body ∧ st1.len = st.len + body.length
  ap : st1.ap = st.ap ∨ ∃ a, st.ap = a :: st1.ap

/-- The kind of a variadic argument. -/
inductive Kind where
  | int
  | uint
  | str
  deriving DecidableEq, Repr

/-- The kind of an argument. -/
def Arg.kind : Arg → Kind
  | Arg.int _ => Kind.int
  | Arg.uint _ => Kind.uint
  | Arg.str _ => Kind.str

/-- The kind of argument a conversion character takes: `d` an `int`, `u`,
`x` and `X` an `unsigned int`, `s` a string; any other character takes none. -/
def kind_of (c : Char) : Option Kind :=
  if c = 'd' then some Kind.int
  else if c = 'u' ∨ c = 'X' ∨ c = 'x' then some Kind.uint
  else if c = 's' then some Kind.str
  else none

/-- Where a reader of the directive grammar `%` `0`? `[0-9]*` `l`? `c` is:
in plain text, after the `%` and digits, or after the `l`. -/
inductive Mode where
  | text
  | head
  | long
  deriving DecidableEq, Repr

/-- The kinds a directive of conversion character `c` puts before those of
the rest of the format. -/
def takes (c : Char) (rest : Option (List Kind)) : Option (List Kind) :=
  match kind_of c with
  | some k => rest.map (fun ks => k :: ks)
  | none => rest

/-- The kinds of the arguments the directives of a format take, in the
order of the directives, read off the directive grammar; `none` when the
listed bytes end within a directive. -/
def expects : Mode → List Char → Option (List Kind)
  | Mode.text, [] => some []
  | Mode.head, [] => none
  | Mode.long, [] => none
  | Mode.text, c :: s =>
    if c = NUL then some [] else if c = '%' then expects Mode.head s else expects Mode.text s
  | Mode.head, c :: s =>
    if is_digit c then expects Mode.head s
    else if c = 'l' then expects Mode.long s
    else takes c (expects Mode.text s)
  | Mode.long, c :: s => takes c (expects Mode.text s)

/-- The argument list matches the directives of the format: the format does
not end within a directive and the arguments begin with one argument of the
right kind for each directive that takes one, in order. -/
def Matches (format : List Char) (ap : List Arg) : Prop :=
  ∃ ks, expects Mode.text format = some ks ∧ (ap.map Arg.kind).take ks.length = ks

/-- The base of an integer conversion character: 16 for `x` and `X`, 10 for `d` and `u`. -/
def conv_base (c : Char) : Nat := if c = 'x' ∨ c = 'X' then 16 else 10

/-- The argument an integer conversion character takes for the value `n`:
an `int` for `d`, an `unsigned int` for `u`, `x` and `X`. -/
def conv_arg (c : Char) (n : Nat) : Arg := if c = 'd' then Arg.int (n : Int) else Arg.uint n

/-- The bound of the non-negative values of an integer conversion character:
`2 ^ 31` for `d`, `2 ^ 32` for `u`, `x` and `X`. -/
def conv_bound (c : Char) : Nat := if c = 'd' then 2 ^ 31 else 2 ^ 32

/-- The output of the integer renderer as the specification words it: a `-`
if the value is negative and the pad character is `'0'`; then
`max(0, e - k)` pad characters, `k` the number of digits and `e` the minimum
width, less one for a negative value; then a `-` if the value is negative and
the pad character is not `'0'`; then the `k` digits, most significant first. -/
def spec_putint (n base : Nat) (upcase sign : Bool) (pad : Char) (min_width : Int) : List Char :=
  (if sign = true ∧ pad = '0' then ['-'] else []) ++
    List.replicate
      (max 0 ((if sign = true then min_width - 1 else min_width) -
        ((numeral base upcase n).length : Int))).toNat pad ++
    (if sign = true ∧ pad ≠ '0' then ['-'] else []) ++ numeral base upcase n

/-- The decimal place value of a run of digit characters, 0 for the empty run. -/
def decimal_value (D : List Char) : Nat :=
  D.foldl (fun a c => a * 10 + (c.toNat - '0'.toNat)) 0

/-- The digit characters the digit loop of `str_putint` generates, in the
order of their generation, with the room left in the buffer; the buffer
itself is left out. -/
def digit_chars : Nat → Nat → Nat → Bool → Option (List Char)
  | 0, _, _, _ => none
  | room + 1, n, base, upcase =>
    if n / base > 0 then
      (digit_chars room (n / base) base upcase).map
        (fun l => last_digit_to_char n base upcase :: l)
    else some [last_digit_to_char n base upcase]

/-- The state `st1` is the state `st` but for the scratch buffer, with the
characters `pre` before its output and `m` added to its count. -/
structure Shifted (pre : List Char) (m : Nat) (st st1 : State) : Prop where
  s_eq : st1.s = st.s
  str_eq : st1.str = pre ++ st.str
  len_eq : st1.len = m + st.len
  ap_eq : st1.ap = st.ap

/-- Two results of a scan that are both a failure, or both a state, the
second being the first shifted. -/
def ShiftedResult (pre : List Char) (m : Nat) (r r1 : Option State) : Prop :=
  (r = none ∧ r1 = none) ∨ ∃ x x1, r = some x ∧ r1 = some x1 ∧ Shifted pre m x x1

/-! ## Output loops -/

theorem put_eq (p : List Char × Nat) (c : Char) : put p c = (p.1 ++ [c], p.2 + 1) := rfl

theorem pad_loop_eq (k : Nat) (p : List Char × Nat) (pad : Char) :
    pad_loop k p pad = (p.1 ++ List.replicate k pad, p.2 + k) := by
  induction k generalizing p with
  | zero => simp [pad_loop]
  | succ k ih =>
    rw [pad_loop, ih, put_eq]
    simp [List.replicate_succ, Nat.add_assoc, Nat.add_comm 1 k]

theorem emit_loop_eq (k : Nat) (s : Nat → Char) (p : List Char × Nat) :
    emit_loop k s p = (p.1 ++ ((List.range k).map s).reverse, p.2 + k) := by
  induction k generalizing p with
  | zero => simp [emit_loop]
  | succ k ih =>
    rw [emit_loop, ih, put_eq]
    simp [List.range_succ, Nat.add_assoc, Nat.add_comm 1 k]

theorem str_putchars_loop_eq (s : List Char) (p : List Char × Nat) :
    str_putchars_loop s p =
      (p.1 ++ s.takeWhile (fun c => decide (c ≠ NUL)),
        p.2 + (s.takeWhile (fun c => decide (c ≠ NUL))).length) := by
  induction s generalizing p with
  | nil => simp [str_putchars_loop]
  | cons c s ih =>
    rw [str_putchars_loop]
    by_cases h : c = NUL
    · simp [h]
    · rw [if_neg h, ih, put_eq]
      simp [List.takeWhile_cons, h, Nat.add_assoc, Nat.add_comm 1]

/-! ## Digits -/

theorem digits_fuel_eq (f base n : Nat) (hb : 2 ≤ base) (hf : n < f) :
    digits_fuel f base n = if n = 0 then [0] else Nat.digits base n := by
  induction f generalizing n with
  | zero => omega
  | succ f ih =>
    rw [digits_fuel]
    by_cases hn : n = 0
    · subst hn; simp
    · have hpos : 0 < n := Nat.pos_of_ne_zero hn
      rw [if_neg hn, Nat.digits_def' (by omega) hpos]
      by_cases hq : n / base = 0
      · simp [hq]
      · rw [if_neg hq, ih (n / base) (by
          have := Nat.div_lt_self hpos (show 1 < base by omega); omega), if_neg hq]

theorem digits_of_eq (base n : Nat) (hb : 2 ≤ base) :
    digits_of base n = if n = 0 then [0] else Nat.digits base n :=
  digits_fuel_eq (n + 1) base n hb (Nat.lt_succ_self n)

theorem digits_of_step (base n : Nat) (hb : 2 ≤ base) :
    digits_of base n = (n % base) :: (if n / base = 0 then [] else digits_of base (n / base)) := by
  rw [digits_of_eq base n hb, digits_of_eq base (n / base) hb]
  by_cases hn : n = 0
  · subst hn; simp
  · rw [if_neg hn, Nat.digits_def' (by omega) (Nat.pos_of_ne_zero hn)]
    by_cases hq : n / base = 0
    · simp [hq]
    · simp [hq]

theorem digits_fuel_length_le (f base : Nat) (hb : 2 ≤ base) :
    ∀ n k : Nat, 0 < k → n < base ^ k → (digits_fuel f base n).length ≤ k := by
  induction f with
  | zero => intro n k hk _; simp [digits_fuel]
  | succ f ih =>
    intro n k hk hn
    rw [digits_fuel]
    by_cases hq : n / base = 0
    · simp [hq]; omega
    · rw [if_neg hq]
      obtain ⟨j, rfl⟩ : ∃ j, k = j + 1 := ⟨k - 1, by omega⟩
      have hlt : n / base < base ^ j := by
        rw [Nat.div_lt_iff_lt_mul (by omega)]
        rw [pow_succ] at hn; exact hn
      have hj : 0 < j := by
        rcases Nat.eq_zero_or_pos j with h | h
        · subst h; simp at hlt; omega
        · exact h
      have := ih (n / base) j hj hlt
      simp only [List.length_cons]; omega

theorem digits_of_length_le (base n k : Nat) (hb : 2 ≤ base) (hk : 0 < k) (hn : n < base ^ k) :
    (digits_of base n).length ≤ k :=
  digits_fuel_length_le (n + 1) base hb n k hk hn

theorem digits_of_length_pos (base n : Nat) : 0 < (digits_of base n).length := by
  simp [digits_of, digits_fuel]

/-! ## The scratch buffer -/

theorem store_below (l : List Char) : ∀ (s : Nat → Char) (i j : Nat), j < i → store s i l j = s j := by
  induction l with
  | nil => intro s i j _; rfl
  | cons c l ih =>
    intro s i j h
    rw [store, ih _ _ _ (by omega), Function.update_noteq (by omega)]

theorem store_read (l : List Char) : ∀ (s : Nat → Char) (i : Nat),
    (List.range l.length).map (fun j => store s i l (i + j)) = l := by
  induction l with
  | nil => intro s i; rfl
  | cons c l ih =>
    intro s i
    rw [List.length_cons, List.range_succ_eq_map, List.map_cons, List.map_map]
    congr 1
    · show store (Function.update s i c) (i + 1) l (i + 0) = c
      rw [store_below _ _ _ _ (by omega), Nat.add_zero, Function.update_same]
    · have := ih (Function.update s i c) (i + 1)
      conv_rhs => rw [← this]
      apply List.map_congr_left
      intro j _
      show store (Function.update s i c) (i + 1) l (i + (j + 1)) = _
      congr 1; omega

theorem last_digit_to_char_mod (n base : Nat) (upcase : Bool) :
    last_digit_to_char (n % base) base upcase = last_digit_to_char n base upcase := by
  simp [last_digit_to_char, Nat.mod_mod]

theorem scratch_step (base n : Nat) (upcase : Bool) (hb : 2 ≤ base) :
    scratch base upcase n = last_digit_to_char n base upcase ::
      (if n / base = 0 then [] else scratch base upcase (n / base)) := by
  unfold scratch
  rw [digits_of_step base n hb, List.map_cons, last_digit_to_char_mod]
  by_cases hq : n / base = 0 <;> simp [hq]

theorem digit_loop_eq (base : Nat) (upcase : Bool) (hb : 2 ≤ base) :
    ∀ (room : Nat) (s : Nat → Char) (i n : Nat), (scratch base upcase n).length ≤ room →
      digit_loop room s i n base upcase =
        some (store s i (scratch base upcase n), i + (scratch base upcase n).length) := by
  intro room
  induction room with
  | zero =>
    intro s i n h
    have := digits_of_length_pos base n
    simp only [scratch, List.length_map] at h
    omega
  | succ room ih =>
    intro s i n h
    rw [digit_loop]
    rw [scratch_step base n upcase hb] at h ⊢
    by_cases hq : n / base = 0
    · simp [hq, store]
    · have hpos : n / base > 0 := Nat.pos_of_ne_zero hq
      rw [if_neg hq] at h ⊢
      simp only [hpos, if_true]
      rw [ih _ _ _ (by simpa using h)]
      simp [store, Nat.add_assoc, Nat.add_comm 1]

/-! ## `str_putint` -/

theorem str_putint_eq (format_buf : Nat → Char) (str : List Char) (n base : Nat)
    (upcase sign : Bool) (pad : Char) (pad_len : Int) (hb : 2 ≤ base) (hn : n < base ^ 32) :
    str_putint format_buf str n base upcase sign pad pad_len =
      some (store format_buf 0 (scratch base upcase n),
        str ++ rendered n base upcase sign pad pad_len,
        (rendered n base upcase sign pad pad_len).length) := by
  have hlen : (scratch base upcase n).length ≤ FORMAT_BUF_SIZE := by
    simp only [scratch, List.length_map]
    exact digits_of_length_le base n 32 hb (by decide) hn
  have hread := store_read (scratch base upcase n) format_buf 0
  simp only [Nat.zero_add] at hread
  unfold str_putint
  rw [digit_loop_eq base upcase hb _ _ _ _ hlen]
  simp only [Nat.zero_add, emit_loop_eq, hread, rendered]
  have hpad : ∀ (e : Int) (p : List Char × Nat),
      (if e > ((scratch base upcase n).length : Int)
        then pad_loop (e - ((scratch base upcase n).length : Int)).toNat p pad else p) =
      (p.1 ++ List.replicate (e - ((scratch base upcase n).length : Int)).toNat pad,
        p.2 + (e - ((scratch base upcase n).length : Int)).toNat) := by
    intro e p
    split
    · rw [pad_loop_eq]
    · have : (e - ((scratch base upcase n).length : Int)).toNat = 0 := by omega
      rw [this]; simp
  rw [hpad]
  cases sign <;> by_cases hp : pad = '0' <;> simp [hp, put_eq] <;> omega

/-! ## The head of a directive -/

theorem width_loop_eq (s : List Char) : ∀ (c : Char) (pad_len : Int),
    width_loop c s pad_len =
      match (c :: s).dropWhile is_digit with
      | [] => none
      | c1 :: r => some (c1, r, width_acc ((c :: s).takeWhile is_digit) pad_len) := by
  induction s with
  | nil =>
    intro c pad_len
    by_cases h : is_digit c = true <;> simp [width_loop, h, width_acc]
  | cons c1 s ih =>
    intro c pad_len
    rw [width_loop]
    by_cases h : is_digit c = true
    · rw [if_pos h, ih]
      rw [List.dropWhile_cons_of_pos h, List.takeWhile_cons_of_pos h]
      rfl
    · rw [if_neg h, List.dropWhile_cons_of_neg h, List.takeWhile_cons_of_neg h]
      rfl

theorem directive_eq (s : List Char) :
    directive s =
      match s.dropWhile is_digit with
      | [] => none
      | c :: r =>
        if c = 'l' then
          match r with
          | [] => none
          | c1 :: r1 => some (pad_of s, width_acc (s.takeWhile is_digit) 0, c1, r1)
        else some (pad_of s, width_acc (s.takeWhile is_digit) 0, c, r) := by
  have key : ∀ (pad : Char) (c : Char) (t : List Char) (u : List Char) (a : Int),
      (c :: t).dropWhile is_digit = u → width_acc ((c :: t).takeWhile is_digit) 0 = a →
      (match width_loop c t 0 with
        | none => none
        | some (c, s, pad_len) =>
          match (if c = 'l' then next_char s else some (c, s)) with
          | none => none
          | some (c, s) => some (pad, pad_len, c, s)) =
      (match u with
        | [] => none
        | c :: r =>
          if c = 'l' then
            match r with
            | [] => none
            | c1 :: r1 => some (pad, a, c1, r1)
          else some (pad, a, c, r)) := by
    intro pad c t u a hu ha
    rw [width_loop_eq, hu, ha]
    cases u with
    | nil => rfl
    | cons c2 r =>
      by_cases hl : c2 = 'l'
      · cases r <;> simp [hl, next_char]
      · simp [hl]
  cases s with
  | nil => rfl
  | cons c s1 =>
    by_cases h0 : c = '0'
    · subst h0
      have hd : is_digit '0' = true := by decide
      cases s1 with
      | nil => rfl
      | cons c1 s2 =>
        refine Eq.trans (key '0' c1 s2 _ _ rfl rfl) ?_
        rw [List.dropWhile_cons_of_pos hd, List.takeWhile_cons_of_pos hd]
        rfl
    · have hstep : directive (c :: s1) =
          (match width_loop c s1 0 with
            | none => none
            | some (c, s, pad_len) =>
              match (if c = 'l' then next_char s else some (c, s)) with
              | none => none
              | some (c, s) => some (' ', pad_len, c, s)) := by
        simp only [directive, show next_char (c :: s1) = some (c, s1) from rfl, if_neg h0]
      rw [hstep, key ' ' c s1 _ _ rfl rfl]
      have : pad_of (c :: s1) = ' ' := by simp [pad_of, h0]
      rw [this]

/-! ## The conversions -/

theorem toUInt32_lt (x : Int) : toUInt32 x < 4294967296 := by
  unfold toUInt32; omega

theorem putint_eq (st : State) (ap : List Arg) (n base : Nat) (upcase sign : Bool) (pad : Char)
    (pad_len : Int) (hb : 2 ≤ base) (hn : n < base ^ 32) :
    st.putint ap n base upcase sign pad pad_len =
      some { st with
        str := st.str ++ rendered n base upcase sign pad pad_len
        len := st.len + (rendered n base upcase sign pad pad_len).length
        ap := ap
        format_buf := store st.format_buf 0 (scratch base upcase n) } := by
  unfold State.putint
  rw [str_putint_eq _ _ _ _ _ _ _ _ hb hn]

theorem putint_ten (st : State) (ap : List Arg) (n : Nat) (upcase sign : Bool) (pad : Char)
    (pad_len : Int) (hn : n < 4294967296) :
    st.putint ap n 10 upcase sign pad pad_len =
      some { st with
        str := st.str ++ rendered n 10 upcase sign pad pad_len
        len := st.len + (rendered n 10 upcase sign pad pad_len).length
        ap := ap
        format_buf := store st.format_buf 0 (scratch 10 upcase n) } :=
  putint_eq st ap n 10 upcase sign pad pad_len (by decide)
    (lt_of_lt_of_le hn (by norm_num))

theorem putint_sixteen (st : State) (ap : List Arg) (n : Nat) (upcase sign : Bool) (pad : Char)
    (pad_len : Int) (hn : n < 4294967296) :
    st.putint ap n 16 upcase sign pad pad_len =
      some { st with
        str := st.str ++ rendered n 16 upcase sign pad pad_len
        len := st.len + (rendered n 16 upcase sign pad pad_len).length
        ap := ap
        format_buf := store st.format_buf 0 (scratch 16 upcase n) } :=
  putint_eq st ap n 16 upcase sign pad pad_len (by decide)
    (lt_of_lt_of_le hn (by norm_num))

theorem str_putchars_eq (str s : List Char) :
    str_putchars str s =
      (str ++ s.takeWhile (fun c => decide (c ≠ NUL)),
        (s.takeWhile (fun c => decide (c ≠ NUL))).length) := by
  unfold str_putchars
  rw [str_putchars_loop_eq]
  simp

theorem Advance.refl (st : State) : Advance st st :=
  ⟨Nat.le_refl _, ⟨[], by simp, by simp⟩, Or.inl rfl⟩

theorem conversion_advance (c pad : Char) (pad_len : Int) (st st1 : State)
    (h : conversion c pad pad_len st = some st1) : Advance st st1 := by
  unfold conversion at h
  split at h
  · split at h
    · rename_i n ap hap
      simp only at h
      split at h <;>
        (rw [putint_ten _ _ _ _ _ _ _ (toUInt32_lt _)] at h
         cases h
         exact ⟨Nat.le_refl _, ⟨_, rfl, rfl⟩, Or.inr ⟨_, hap⟩⟩)
    · cases h
  · split at h
    · split at h
      · rename_i u ap hap
        rw [putint_ten _ _ _ _ _ _ _ (Nat.mod_lt _ (by decide))] at h
        cases h
        exact ⟨Nat.le_refl _, ⟨_, rfl, rfl⟩, Or.inr ⟨_, hap⟩⟩
      · cases h
    · split at h
      · split at h
        · rename_i u ap hap
          rw [putint_sixteen _ _ _ _ _ _ _ (Nat.mod_lt _ (by decide))] at h
          cases h
          exact ⟨Nat.le_refl _, ⟨_, rfl, rfl⟩, Or.inr ⟨_, hap⟩⟩
        · cases h
      · split at h
        · split at h
          · rename_i t ap hap
            rw [str_putchars_eq] at h
            cases h
            exact ⟨Nat.le_refl _, ⟨_, rfl, rfl⟩, Or.inr ⟨_, hap⟩⟩
          · cases h
        · split at h
          · cases h
            exact ⟨Nat.le_refl _, ⟨[c], rfl, rfl⟩, Or.inl rfl⟩
          · cases h
            exact ⟨Nat.le_refl _, ⟨['%', c], by simp [State.putc, str_putc],
              by simp [State.putc, str_putc, Nat.add_assoc]⟩, Or.inl rfl⟩

theorem Advance.trans {a b c : State} (h1 : Advance a b) (h2 : Advance b c) :
    ∃ body : List Char, c.str = a.str ++ body ∧ c.len = a.len + body.length := by
  obtain ⟨x, hx1, hx2⟩ := h1.out
  obtain ⟨y, hy1, hy2⟩ := h2.out
  exact ⟨x ++ y, by rw [hy1, hx1, List.append_assoc],
    by rw [hy2, hx2, List.length_append, Nat.add_assoc]⟩

/-! ## The scan -/

theorem directive_length (s : List Char) (pad : Char) (pad_len : Int) (c : Char) (r : List Char)
    (h : directive s = some (pad, pad_len, c, r)) : r.length < s.length := by
  rw [directive_eq] at h
  have hle : (s.dropWhile is_digit).length ≤ s.length :=
    (List.dropWhile_suffix is_digit).length_le
  cases hd : s.dropWhile is_digit with
  | nil => rw [hd] at h; cases h
  | cons c0 r0 =>
    rw [hd] at h hle
    simp only [List.length_cons] at hle
    by_cases hl : c0 = 'l'
    · simp only [hl, if_true] at h
      cases r0 with
      | nil => cases h
      | cons c1 r1 =>
        simp only [Option.some.injEq, Prod.mk.injEq] at h
        obtain ⟨_, _, _, rfl⟩ := h
        simp only [List.length_cons] at hle
        omega
    · simp only [hl, if_false, Option.some.injEq, Prod.mk.injEq] at h
      obtain ⟨_, _, _, rfl⟩ := h
      omega

theorem step_advance (c : Char) (st st1 : State) (h : sprintf_step c st = some st1) :
    Advance st st1 := by
  unfold sprintf_step at h
  split at h
  · split at h
    · cases h
    · rename_i pad pad_len c1 r hdir
      have hlen := directive_length _ _ _ _ _ hdir
      have := conversion_advance _ _ _ _ _ h
      exact ⟨by have := this.s_le; simp only at this; omega, this.out, this.ap⟩
  · cases h
    exact ⟨Nat.le_refl _, ⟨[c], rfl, rfl⟩, Or.inl rfl⟩

theorem loop_fuel (fuel : Nat) : ∀ (fuel1 : Nat) (st : State),
    st.s.length < fuel → st.s.length < fuel1 → sprintf_loop fuel st = sprintf_loop fuel1 st := by
  induction fuel with
  | zero => intro fuel1 st h; omega
  | succ fuel ih =>
    intro fuel1 st h h1
    obtain ⟨f1, rfl⟩ : ∃ f1, fuel1 = f1 + 1 := ⟨fuel1 - 1, by omega⟩
    rw [sprintf_loop, sprintf_loop]
    cases hs : st.s with
    | nil => rfl
    | cons c s =>
      simp only
      by_cases hc : c = NUL
      · simp [hc]
      · simp only [if_neg hc]
        cases hstep : sprintf_step c { st with s := s } with
        | none => rfl
        | some st1 =>
          have hadv := (step_advance _ _ _ hstep).s_le
          simp only at hadv
          rw [hs] at h h1
          simp only [List.length_cons] at h h1
          exact ih f1 st1 (by omega) (by omega)

theorem run_nil (st : State) (h : st.s = []) : run st = some st := by
  unfold run
  rw [sprintf_loop, h]

theorem run_nul (st : State) (s : List Char) (h : st.s = NUL :: s) : run st = some st := by
  unfold run
  rw [sprintf_loop, h]
  simp

theorem run_cons (st : State) (c : Char) (s : List Char) (h : st.s = c :: s) (hc : c ≠ NUL) :
    run st =
      match sprintf_step c { st with s := s } with
      | none => none
      | some st1 => run st1 := by
  unfold run
  rw [sprintf_loop, h]
  simp only [if_neg hc, List.length_cons]
  cases hstep : sprintf_step c { st with s := s } with
  | none => rfl
  | some st1 =>
    have hadv := (step_advance _ _ _ hstep).s_le
    simp only at hadv
    exact loop_fuel _ _ _ (by omega) (by omega)

/-! ## The directive grammar and the scan -/

theorem dropWhile_head_not (p : Char → Bool) (s : List Char) (c : Char) (r : List Char)
    (h : s.dropWhile p = c :: r) : p c = false := by
  induction s with
  | nil => simp at h
  | cons x s ih =>
    by_cases hx : p x = true
    · rw [List.dropWhile_cons_of_pos hx] at h; exact ih h
    · rw [List.dropWhile_cons_of_neg hx] at h
      cases h
      simpa using hx

theorem expects_head_dropWhile (s : List Char) :
    expects Mode.head s = expects Mode.head (s.dropWhile is_digit) := by
  induction s with
  | nil => rfl
  | cons c s ih =>
    by_cases hc : is_digit c = true
    · rw [List.dropWhile_cons_of_pos hc, expects, if_pos hc, ih]
    · rw [List.dropWhile_cons_of_neg hc]

theorem expects_head_eq (s : List Char) :
    expects Mode.head s =
      match s.dropWhile is_digit with
      | [] => none
      | c :: r =>
        if c = 'l' then
          match r with
          | [] => none
          | c1 :: r1 => takes c1 (expects Mode.text r1)
        else takes c (expects Mode.text r) := by
  rw [expects_head_dropWhile]
  cases hd : s.dropWhile is_digit with
  | nil => rfl
  | cons c r =>
    have hc := dropWhile_head_not _ _ _ _ hd
    rw [expects]
    simp only [hc, Bool.false_eq_true, if_false]
    by_cases hl : c = 'l'
    · simp only [hl, if_true]
      cases r <;> rfl
    · simp only [hl, if_false]

theorem putint_s (st st1 : State) (ap : List Arg) (n base : Nat) (upcase sign : Bool)
    (pad : Char) (pad_len : Int) (h : st.putint ap n base upcase sign pad pad_len = some st1) :
    st1.s = st.s := by
  unfold State.putint at h
  split at h
  · cases h
  · cases h; rfl

theorem conversion_s (c pad : Char) (pad_len : Int) (st st1 : State)
    (h : conversion c pad pad_len st = some st1) : st1.s = st.s := by
  unfold conversion at h
  split at h
  · split at h
    · simp only at h
      split at h <;> exact putint_s _ _ _ _ _ _ _ _ _ h
    · cases h
  · split at h
    · split at h
      · exact putint_s _ _ _ _ _ _ _ _ _ h
      · cases h
    · split at h
      · split at h
        · exact putint_s _ _ _ _ _ _ _ _ _ h
        · cases h
      · split at h
        · split at h
          · cases h; rfl
          · cases h
        · split at h <;> (cases h; rfl)

theorem conversion_plain (c pad : Char) (pad_len : Int) (st : State) (hk : kind_of c = none) :
    ∃ st1, conversion c pad pad_len st = some st1 ∧ st1.ap = st.ap := by
  unfold kind_of at hk
  split at hk
  · cases hk
  · split at hk
    · cases hk
    · split at hk
      · cases hk
      · rename_i h1 h2 h3
        have hX : ¬ (c = 'X' ∨ c = 'x') := fun h => h2 (Or.inr h)
        unfold conversion
        rw [if_neg h1, if_neg (fun h => h2 (Or.inl h)), if_neg hX, if_neg h3]
        split <;> exact ⟨_, rfl, rfl⟩

theorem conversion_takes (c pad : Char) (pad_len : Int) (st : State) (a : Arg) (ap : List Arg)
    (hap : st.ap = a :: ap) (hk : kind_of c = some a.kind) :
    ∃ st1, conversion c pad pad_len st = some st1 ∧ st1.ap = ap := by
  unfold kind_of at hk
  unfold conversion
  split at hk
  · rename_i h1
    rw [if_pos h1, hap]
    cases a with
    | int n =>
      simp only
      split <;> (rw [putint_ten _ _ _ _ _ _ _ (toUInt32_lt _)]; exact ⟨_, rfl, rfl⟩)
    | uint u => cases hk
    | str t => cases hk
  · rename_i h1
    rw [if_neg h1]
    split at hk
    · rename_i h2
      cases a with
      | int n => cases hk
      | str t => cases hk
      | uint u =>
        by_cases hu : c = 'u'
        · rw [if_pos hu, hap]
          simp only
          rw [putint_ten _ _ _ _ _ _ _ (Nat.mod_lt _ (by decide))]
          exact ⟨_, rfl, rfl⟩
        · have hX : c = 'X' ∨ c = 'x' := by tauto
          rw [if_neg hu, if_pos hX, hap]
          simp only
          rw [putint_sixteen _ _ _ _ _ _ _ (Nat.mod_lt _ (by decide))]
          exact ⟨_, rfl, rfl⟩
    · rename_i h2
      split at hk
      · rename_i h3
        have hX : ¬ (c = 'X' ∨ c = 'x') := fun h => h2 (Or.inr h)
        rw [if_neg (fun h => h2 (Or.inl h)), if_neg hX, if_pos h3, hap]
        cases a with
        | int n => cases hk
        | uint u => cases hk
        | str t => exact ⟨_, rfl, rfl⟩
      · cases hk

theorem loop_out (fuel : Nat) : ∀ (st st1 : State), sprintf_loop fuel st = some st1 →
    ∃ body : List Char, st1.str = st.str ++ body ∧ st1.len = st.len + body.length := by
  induction fuel with
  | zero => intro st st1 h; cases h
  | succ fuel ih =>
    intro st st1 h
    rw [sprintf_loop] at h
    split at h
    · cases h; exact ⟨[], by simp, by simp⟩
    · split at h
      · cases h; exact ⟨[], by simp, by simp⟩
      · split at h
        · cases h
        · rename_i st2 hstep
          have h1 := step_advance _ _ _ hstep
          obtain ⟨x, hx1, hx2⟩ := h1.out
          obtain ⟨y, hy1, hy2⟩ := ih _ _ h
          simp only at hx1 hx2
          exact ⟨x ++ y, by rw [hy1, hx1, List.append_assoc],
            by rw [hy2, hx2, List.length_append, Nat.add_assoc]⟩

theorem take_kinds_cons (ap : List Arg) (k : Kind) (ks : List Kind)
    (h : (ap.map Arg.kind).take (k :: ks).length = k :: ks) :
    ∃ a ap1, ap = a :: ap1 ∧ a.kind = k ∧ (ap1.map Arg.kind).take ks.length = ks := by
  cases ap with
  | nil => simp at h
  | cons a ap1 =>
    simp only [List.map_cons, List.length_cons, List.take_succ_cons, List.cons.injEq] at h
    exact ⟨a, ap1, rfl, h.1, h.2⟩

theorem conv_matches (n : Nat)
    (ih : ∀ (st : State) (ks : List Kind), st.s.length ≤ n →
      expects Mode.text st.s = some ks → (st.ap.map Arg.kind).take ks.length = ks →
      ∃ st1, run st = some st1 ∧ st1.ap = st.ap.drop ks.length)
    (st : State) (c pad : Char) (pad_len : Int) (ks : List Kind) (hn : st.s.length ≤ n)
    (hk : takes c (expects Mode.text st.s) = some ks)
    (ht : (st.ap.map Arg.kind).take ks.length = ks) :
    ∃ st2, (match conversion c pad pad_len st with
      | none => none
      | some st1 => run st1) = some st2 ∧ st2.ap = st.ap.drop ks.length := by
  unfold takes at hk
  cases hkind : kind_of c with
  | none =>
    rw [hkind] at hk
    obtain ⟨st1, h1, hap⟩ := conversion_plain c pad pad_len st hkind
    have hs := conversion_s _ _ _ _ _ h1
    rw [h1]
    obtain ⟨st2, h2, hap2⟩ := ih st1 ks (by rw [hs]; exact hn) (by rw [hs]; exact hk)
      (by rw [hap]; exact ht)
    exact ⟨st2, h2, by rw [hap2, hap]⟩
  | some k =>
    rw [hkind] at hk
    cases hrest : expects Mode.text st.s with
    | none => rw [hrest] at hk; cases hk
    | some ks1 =>
      rw [hrest] at hk
      simp only [Option.map_some', Option.some.injEq] at hk
      subst hk
      obtain ⟨a, ap1, hap, hak, ht1⟩ := take_kinds_cons _ _ _ ht
      obtain ⟨st1, h1, hap1⟩ := conversion_takes c pad pad_len st a ap1 hap (by rw [hkind, hak])
      have hs := conversion_s _ _ _ _ _ h1
      rw [h1]
      obtain ⟨st2, h2, hap2⟩ := ih st1 ks1 (by rw [hs]; exact hn) (by rw [hs]; exact hrest)
        (by rw [hap1]; exact ht1)
      exact ⟨st2, h2, by rw [hap2, hap1, hap]; rfl⟩

theorem run_matches (n : Nat) : ∀ (st : State) (ks : List Kind), st.s.length ≤ n →
    expects Mode.text st.s = some ks → (st.ap.map Arg.kind).take ks.length = ks →
    ∃ st1, run st = some st1 ∧ st1.ap = st.ap.drop ks.length := by
  induction n with
  | zero =>
    intro st ks hn hk _
    have hs : st.s = [] := List.length_eq_zero.mp (by omega)
    rw [hs] at hk
    simp only [expects, Option.some.injEq] at hk
    subst hk
    exact ⟨st, run_nil st hs, rfl⟩
  | succ n ih =>
    intro st ks hn hk ht
    cases hs : st.s with
    | nil =>
      rw [hs] at hk
      simp only [expects, Option.some.injEq] at hk
      subst hk
      exact ⟨st, run_nil st hs, rfl⟩
    | cons c s =>
      rw [hs] at hk hn
      simp only [List.length_cons] at hn
      rw [expects] at hk
      by_cases hc : c = NUL
      · rw [if_pos hc] at hk
        cases hk
        exact ⟨st, run_nul st s (by rw [hs, hc]), rfl⟩
      · rw [if_neg hc] at hk
        rw [run_cons st c s hs hc]
        unfold sprintf_step
        by_cases hp : c = '%'
        · rw [if_pos hp] at hk ⊢
          simp only
          rw [expects_head_eq] at hk
          rw [directive_eq]
          have hle : (s.dropWhile is_digit).length ≤ s.length :=
            (List.dropWhile_suffix is_digit).length_le
          cases hd : s.dropWhile is_digit with
          | nil => rw [hd] at hk; cases hk
          | cons c0 r =>
            rw [hd] at hk hle
            simp only [List.length_cons] at hle
            simp only
            by_cases hl : c0 = 'l'
            · subst hl
              simp only [if_true] at hk ⊢
              cases r with
              | nil => cases hk
              | cons c1 r1 =>
                simp only [List.length_cons] at hle
                simp only at hk ⊢
                exact conv_matches n ih { st with s := r1 } c1 _ _ ks
                  (by simp only; omega) hk ht
            · simp only [hl, if_false] at hk ⊢
              exact conv_matches n ih { st with s := r } c0 _ _ ks
                (by simp only; omega) hk ht
        · rw [if_neg hp] at hk ⊢
          simp only
          exact ih (State.putc { st with s := s } c) ks (by simp only [State.putc]; omega) hk ht

/-! ## Directives written out -/

theorem takeWhile_digits (D : List Char) (c : Char) (rest : List Char)
    (hD : ∀ x ∈ D, is_digit x = true) (hc : is_digit c = false) :
    (D ++ c :: rest).takeWhile is_digit = D ∧ (D ++ c :: rest).dropWhile is_digit = c :: rest := by
  induction D with
  | nil => simp [List.takeWhile_cons, List.dropWhile_cons, hc]
  | cons x D ih =>
    have hx : is_digit x = true := hD x (List.mem_cons_self _ _)
    have := ih (fun y hy => hD y (List.mem_cons_of_mem _ hy))
    simp [List.takeWhile_cons, List.dropWhile_cons, hx, this]

theorem pad_of_digits (D : List Char) (c : Char) (rest : List Char) (hc : is_digit c = false) :
    pad_of (D ++ c :: rest) = pad_of D := by
  cases D with
  | nil =>
    have : c ≠ '0' := by
      intro h; subst h; exact absurd hc (by decide)
    simp [pad_of, this]
  | cons x D => rfl

theorem directive_digits (D : List Char) (c : Char) (rest : List Char)
    (hD : ∀ x ∈ D, is_digit x = true) (hc : is_digit c = false) (hl : c ≠ 'l') :
    directive (D ++ c :: rest) = some (pad_of D, width_acc D 0, c, rest) := by
  rw [directive_eq, (takeWhile_digits D c rest hD hc).1, (takeWhile_digits D c rest hD hc).2,
    pad_of_digits D c rest hc]
  simp [hl]

theorem directive_digits_long (D : List Char) (c : Char) (rest : List Char)
    (hD : ∀ x ∈ D, is_digit x = true) :
    directive (D ++ 'l' :: c :: rest) = some (pad_of D, width_acc D 0, c, rest) := by
  have hc : is_digit 'l' = false := by decide
  rw [directive_eq, (takeWhile_digits D 'l' (c :: rest) hD hc).1,
    (takeWhile_digits D 'l' (c :: rest) hD hc).2, pad_of_digits D 'l' (c :: rest) hc]
  simp

theorem run_directive (st : State) (s r : List Char) (pad : Char) (pad_len : Int) (c : Char)
    (hs : st.s = '%' :: s) (hd : directive s = some (pad, pad_len, c, r)) :
    run st =
      match conversion c pad pad_len { st with s := r } with
      | none => none
      | some st1 => run st1 := by
  rw [run_cons st '%' s hs (by decide)]
  unfold sprintf_step
  simp only [if_true, hd]

theorem run_literal (st : State) (c : Char) (s : List Char) (hs : st.s = c :: s)
    (hc : c ≠ NUL) (hp : c ≠ '%') : run st = run (State.putc { st with s := s } c) := by
  rw [run_cons st c s hs hc]
  unfold sprintf_step
  simp only [if_neg hp]

theorem run_text (format : List Char) : ∀ (str : List Char) (len : Nat) (ap : List Arg)
    (format_buf : Nat → Char), NUL ∉ format → '%' ∉ format →
    run ⟨format, str, len, ap, format_buf⟩ =
      some ⟨[], str ++ format, len + format.length, ap, format_buf⟩ := by
  induction format with
  | nil => intro str len ap b _ _; simpa using run_nil ⟨[], str, len, ap, b⟩ rfl
  | cons c s ih =>
    intro str len ap b hn hp
    have hc : c ≠ NUL := fun h => hn (h ▸ List.mem_cons_self _ _)
    have hc1 : c ≠ '%' := fun h => hp (h ▸ List.mem_cons_self _ _)
    rw [run_literal _ c s rfl hc hc1]
    simp only [State.putc, str_putc]
    rw [ih _ _ _ _ (fun h => hn (List.mem_cons_of_mem _ h)) (fun h => hp (List.mem_cons_of_mem _ h))]
    simp [Nat.add_assoc, Nat.add_comm 1]

theorem sprintf_of_run (format_buf : Nat → Char) (format : List Char) (ap : List Arg)
    (st : State) (h : run ⟨format, [], 0, ap, format_buf⟩ = some st) :
    sprintf format_buf format ap = some (st.str ++ [NUL], st.len) := by
  unfold sprintf
  rw [h]
  rfl

/-! ## Numerals -/

theorem digit_value_digit_char (upcase : Bool) (d : Nat) (hd : d < 36) :
    digit_value (digit_char upcase d) = some d := by
  cases upcase <;> interval_cases d <;> rfl

theorem is_digit_digit_char (upcase : Bool) (d : Nat) (hd : d < 10) :
    is_digit (digit_char upcase d) = true := by
  cases upcase <;> interval_cases d <;> rfl

theorem last_digit_to_char_eq (d base : Nat) (upcase : Bool) (hd : d < base) (h : d < 128) :
    last_digit_to_char d base upcase = digit_char upcase d := by
  unfold last_digit_to_char digit_char toSChar charOfInt
  rw [Nat.mod_eq_of_lt hd]
  have e1 : ((d : Int) + 128) % 256 - 128 = (d : Int) := by omega
  simp only [e1]
  have c0 : (('0'.toNat : Nat) : Int) = 48 := by decide
  have c1 : (('A'.toNat : Nat) : Int) = 65 := by decide
  have c2 : (('a'.toNat : Nat) : Int) = 97 := by decide
  rw [c0, c1, c2]
  have t0 : (((d : Int) + 48) % 256).toNat = d + 48 := by omega
  have t1 : (((d : Int) + (65 - 10)) % 256).toNat = d + 55 := by omega
  have t2 : (((d : Int) + (97 - 10)) % 256).toNat = d + 87 := by omega
  rw [t0, t1, t2]
  by_cases h9 : d ≤ 9
  · have : (d : Int) ≤ 9 := by omega
    simp [h9, this]
  · have : ¬ (d : Int) ≤ 9 := by omega
    simp [h9, this]

theorem digits_fuel_lt (f base : Nat) (hb : 0 < base) :
    ∀ n d : Nat, d ∈ digits_fuel f base n → d < base := by
  induction f with
  | zero => intro n d h; simp [digits_fuel] at h
  | succ f ih =>
    intro n d h
    rw [digits_fuel] at h
    rcases List.mem_cons.mp h with h | h
    · rw [h]; exact Nat.mod_lt _ hb
    · split at h
      · simp at h
      · exact ih _ _ h

theorem digits_of_lt (base n d : Nat) (hb : 0 < base) (h : d ∈ digits_of base n) : d < base :=
  digits_fuel_lt (n + 1) base hb n d h

theorem scratch_reverse (base n : Nat) (upcase : Bool) (hb : 0 < base) (hb1 : base ≤ 128) :
    (scratch base upcase n).reverse = numeral base upcase n := by
  unfold scratch numeral
  congr 1
  apply List.map_congr_left
  intro d hd
  have := digits_of_lt base n d hb hd
  exact last_digit_to_char_eq d base upcase this (by omega)

theorem scratch_length (base n : Nat) (upcase : Bool) :
    (scratch base upcase n).length = (numeral base upcase n).length := by
  simp [scratch, numeral]

theorem ofDigits_digits_of (base n : Nat) (hb : 2 ≤ base) :
    Nat.ofDigits base (digits_of base n) = n := by
  rw [digits_of_eq base n hb]
  by_cases h : n = 0
  · subst h; simp
  · rw [if_neg h, Nat.ofDigits_digits]

theorem parse_digits_append (base : Nat) (xs : List Char) : ∀ (ys : List Char) (acc : Nat),
    parse_digits base (xs ++ ys) acc =
      match parse_digits base xs acc with
      | none => none
      | some v => parse_digits base ys v := by
  induction xs with
  | nil => intro ys acc; rfl
  | cons c xs ih =>
    intro ys acc
    simp only [List.cons_append, parse_digits]
    cases digit_value c with
    | none => rfl
    | some d =>
      simp only
      split
      · exact ih ys _
      · rfl

theorem parse_digits_numeral (base : Nat) (upcase : Bool) (hb : base ≤ 36) (L : List Nat) :
    ∀ acc : Nat, (∀ d ∈ L, d < base) →
      parse_digits base ((L.map (digit_char upcase)).reverse) acc =
        some (acc * base ^ L.length + Nat.ofDigits base L) := by
  induction L with
  | nil => intro acc _; simp [parse_digits]
  | cons d L ih =>
    intro acc hL
    have hd : d < base := hL d (List.mem_cons_self _ _)
    rw [List.map_cons, List.reverse_cons, parse_digits_append,
      ih acc (fun x hx => hL x (List.mem_cons_of_mem _ hx))]
    simp only [parse_digits, digit_value_digit_char upcase d (by omega), hd, if_true]
    rw [Nat.ofDigits_cons, List.length_cons, pow_succ]
    congr 1
    ring

theorem parse_number_numeral (base : Nat) (upcase : Bool) (n : Nat) (hb : 2 ≤ base)
    (hb1 : base ≤ 36) : parse_number base (numeral base upcase n) = some n := by
  unfold parse_number
  have hne : numeral base upcase n ≠ [] := by
    intro h
    have := congrArg List.length h
    have hpos := digits_of_length_pos base n
    simp [numeral] at this
    simp [this] at hpos
  rw [if_neg hne]
  unfold numeral
  rw [parse_digits_numeral base upcase hb1 _ 0 (fun d hd => digits_of_lt base n d (by omega) hd),
    ofDigits_digits_of base n hb]
  simp

/-! ## The width written in decimal -/

theorem is_digit_iff (c : Char) : is_digit c = true ↔ 48 ≤ c.toNat ∧ c.toNat ≤ 57 := by
  unfold is_digit
  have c0 : '0'.toNat = 48 := by decide
  have c9 : '9'.toNat = 57 := by decide
  rw [c0, c9]
  simp

theorem digit_value_of_is_digit (c : Char) (h : is_digit c = true) :
    digit_value c = some (c.toNat - 48) := by
  rw [is_digit_iff] at h
  unfold digit_value
  rw [if_pos h]

theorem wrapInt32_step (a : Int) (d : Int) :
    wrapInt32 (wrapInt32 a * 10 + d) = wrapInt32 (a * 10 + d) := by
  unfold wrapInt32
  omega

theorem wrapInt32_of_lt (w : Nat) (h : w < 2147483648) : wrapInt32 (w : Int) = (w : Int) := by
  unfold wrapInt32
  omega

theorem width_acc_parse (D : List Char) : ∀ (acc v : Nat), (∀ x ∈ D, is_digit x = true) →
    parse_digits 10 D acc = some v → width_acc D (wrapInt32 (acc : Int)) = wrapInt32 (v : Int) := by
  induction D with
  | nil =>
    intro acc v _ h
    simp only [parse_digits, Option.some.injEq] at h
    rw [width_acc, h]
  | cons c D ih =>
    intro acc v hD h
    have hc : is_digit c = true := hD c (List.mem_cons_self _ _)
    have hr := (is_digit_iff c).mp hc
    rw [parse_digits, digit_value_of_is_digit c hc] at h
    simp only at h
    rw [if_pos (by omega)] at h
    have := ih (acc * 10 + (c.toNat - 48)) v (fun x hx => hD x (List.mem_cons_of_mem _ hx)) h
    have c0 : (('0'.toNat : Nat) : Int) = 48 := by decide
    have e : wrapInt32 (wrapInt32 (acc : Int) * 10 + (c.toNat : Int) - (('0'.toNat : Nat) : Int)) =
        wrapInt32 ((acc * 10 + (c.toNat - 48) : Nat) : Int) := by
      rw [c0, Int.add_sub_assoc, wrapInt32_step]
      have : (acc : Int) * 10 + ((c.toNat : Int) - 48) = ((acc * 10 + (c.toNat - 48) : Nat) : Int) := by
        omega
      rw [this]
    rw [width_acc, e]
    exact this

theorem width_acc_zero (D : List Char) (v : Nat) (hD : ∀ x ∈ D, is_digit x = true)
    (h : parse_digits 10 D 0 = some v) : width_acc D 0 = wrapInt32 (v : Int) := by
  have := width_acc_parse D 0 v hD h
  simpa [wrapInt32] using this

theorem numeral_digits (upcase : Bool) (n : Nat) :
    ∀ x ∈ numeral 10 upcase n, is_digit x = true := by
  intro x hx
  simp only [numeral, List.mem_reverse, List.mem_map] at hx
  obtain ⟨d, hd, rfl⟩ := hx
  exact is_digit_digit_char upcase d (digits_of_lt 10 n d (by decide) hd)

theorem parse_digits_numeral_zero (base : Nat) (upcase : Bool) (n : Nat) (hb : 2 ≤ base)
    (hb1 : base ≤ 36) : parse_digits base (numeral base upcase n) 0 = some n := by
  unfold numeral
  rw [parse_digits_numeral base upcase hb1 _ 0 (fun d hd => digits_of_lt base n d (by omega) hd),
    ofDigits_digits_of base n hb]
  simp

theorem decimal_digits (w : Nat) : ∀ x ∈ decimal w, is_digit x = true := by
  unfold decimal
  split
  · intro x hx; simp at hx
  · exact numeral_digits false w

theorem width_acc_decimal (w : Nat) : width_acc (decimal w) 0 = wrapInt32 (w : Int) := by
  apply width_acc_zero _ _ (decimal_digits w)
  unfold decimal
  split
  · rename_i h; subst h; rfl
  · exact parse_digits_numeral_zero 10 false w (by decide) (by decide)

theorem numeral_head (base : Nat) (upcase : Bool) (n : Nat) (hb : 2 ≤ base) (hn : n ≠ 0) :
    ∃ d, d ≠ 0 ∧ d < base ∧ (numeral base upcase n).head? = some (digit_char upcase d) := by
  unfold numeral
  rw [List.head?_reverse, List.getLast?_map]
  have hdig : digits_of base n = Nat.digits base n := by rw [digits_of_eq base n hb, if_neg hn]
  have hne : Nat.digits base n ≠ [] := Nat.digits_ne_nil_iff_ne_zero.mpr hn
  have hlast := Nat.getLast_digit_ne_zero base hn
  rw [hdig, List.getLast?_eq_getLast _ hne]
  refine ⟨(Nat.digits base n).getLast hne, hlast, ?_, rfl⟩
  exact Nat.digits_lt_base (by omega) (List.getLast_mem hne)

theorem pad_of_decimal (w : Nat) : pad_of (decimal w) = ' ' := by
  unfold decimal
  split
  · rfl
  · rename_i h
    obtain ⟨d, hd0, hd, hh⟩ := numeral_head 10 false w (by decide) h
    unfold pad_of
    rw [hh]
    have : digit_char false d ≠ '0' := by
      interval_cases d
      · exact absurd rfl hd0
      all_goals decide
    simp [this]

theorem pad_of_zero_decimal (w : Nat) : pad_of ('0' :: decimal w) = '0' := rfl

theorem width_acc_zero_decimal (w : Nat) :
    width_acc ('0' :: decimal w) 0 = wrapInt32 (w : Int) := by
  rw [width_acc]
  exact width_acc_decimal w

/-! ## One integer directive -/

theorem sprintf_single (format_buf : Nat → Char) (hdr : List Char) (pad : Char) (w : Int)
    (c : Char) (ap : List Arg) (st1 : State) (hd : directive hdr = some (pad, w, c, []))
    (hconv : conversion c pad w ⟨[], [], 0, ap, format_buf⟩ = some st1) :
    sprintf format_buf ('%' :: hdr) ap = some (st1.str ++ [NUL], st1.len) := by
  apply sprintf_of_run
  rw [run_directive ⟨'%' :: hdr, [], 0, ap, format_buf⟩ hdr [] pad w c rfl hd]
  simp only [hconv]
  exact run_nil st1 (conversion_s _ _ _ _ _ hconv)

theorem rendered_unsigned (n base : Nat) (upcase : Bool) (pad : Char) (w : Nat)
    (hb : 0 < base) (hb1 : base ≤ 128) :
    rendered n base upcase false pad (w : Int) =
      List.replicate (w - (numeral base upcase n).length) pad ++ numeral base upcase n := by
  unfold rendered
  rw [scratch_reverse base n upcase hb hb1, scratch_length]
  have : ((w : Int) - ((numeral base upcase n).length : Int)).toNat =
      w - (numeral base upcase n).length := by omega
  simp [this]

theorem rendered_signed_zero (n base : Nat) (upcase : Bool) (w : Nat)
    (hb : 0 < base) (hb1 : base ≤ 128) (hw : w < 2147483648) :
    rendered n base upcase true '0' (w : Int) =
      '-' :: (List.replicate (w - 1 - (numeral base upcase n).length) '0' ++
        numeral base upcase n) := by
  unfold rendered
  rw [scratch_reverse base n upcase hb hb1, scratch_length]
  have : (wrapInt32 ((w : Int) - 1) - ((numeral base upcase n).length : Int)).toNat =
      w - 1 - (numeral base upcase n).length := by
    unfold wrapInt32; omega
  simp [this]

theorem rendered_signed_space (n base : Nat) (upcase : Bool) (w : Nat)
    (hb : 0 < base) (hb1 : base ≤ 128) (hw : w < 2147483648) :
    rendered n base upcase true ' ' (w : Int) =
      List.replicate (w - 1 - (numeral base upcase n).length) ' ' ++
        '-' :: numeral base upcase n := by
  unfold rendered
  rw [scratch_reverse base n upcase hb hb1, scratch_length]
  have : (wrapInt32 ((w : Int) - 1) - ((numeral base upcase n).length : Int)).toNat =
      w - 1 - (numeral base upcase n).length := by
    unfold wrapInt32; omega
  simp [this]

theorem conversion_d_nonneg (n : Nat) (pad : Char) (w : Int) (st : State) (ap : List Arg)
    (hn : n < 2147483648) (hap : st.ap = Arg.int (n : Int) :: ap) :
    conversion 'd' pad w st =
      some { st with
        str := st.str ++ rendered n 10 false false pad w
        len := st.len + (rendered n 10 false false pad w).length
        ap := ap
        format_buf := store st.format_buf 0 (scratch 10 false n) } := by
  have h1 : wrapInt32 (n : Int) = (n : Int) := wrapInt32_of_lt n hn
  have h2 : toUInt32 (n : Int) = n := by unfold toUInt32; omega
  unfold conversion
  rw [if_pos rfl, hap]
  simp only [h1, h2]
  rw [if_pos (by omega), putint_ten _ _ _ _ _ _ _ (by omega)]

theorem conversion_d_neg (n : Int) (pad : Char) (w : Int) (st : State) (ap : List Arg)
    (hlo : -2147483648 ≤ n) (hneg : n < 0) (hap : st.ap = Arg.int n :: ap) :
    conversion 'd' pad w st =
      some { st with
        str := st.str ++ rendered n.natAbs 10 false true pad w
        len := st.len + (rendered n.natAbs 10 false true pad w).length
        ap := ap
        format_buf := store st.format_buf 0 (scratch 10 false n.natAbs) } := by
  have h1 : wrapInt32 n = n := by unfold wrapInt32; omega
  have h2 : toUInt32 (wrapInt32 (-n)) = n.natAbs := by unfold toUInt32 wrapInt32; omega
  unfold conversion
  rw [if_pos rfl, hap]
  simp only [h1, h2]
  rw [if_neg (by omega), putint_ten _ _ _ _ _ _ _ (by omega)]

theorem conversion_u (u : Nat) (pad : Char) (w : Int) (st : State) (ap : List Arg)
    (hu : u < 4294967296) (hap : st.ap = Arg.uint u :: ap) :
    conversion 'u' pad w st =
      some { st with
        str := st.str ++ rendered u 10 false false pad w
        len := st.len + (rendered u 10 false false pad w).length
        ap := ap
        format_buf := store st.format_buf 0 (scratch 10 false u) } := by
  unfold conversion
  rw [if_neg (by decide), if_pos rfl, hap]
  simp only [Nat.mod_eq_of_lt hu]
  rw [putint_ten _ _ _ _ _ _ _ hu]

theorem conversion_x (c : Char) (u : Nat) (pad : Char) (w : Int) (st : State) (ap : List Arg)
    (hc : c = 'X' ∨ c = 'x') (hu : u < 4294967296) (hap : st.ap = Arg.uint u :: ap) :
    conversion c pad w st =
      some { st with
        str := st.str ++ rendered u 16 (c == 'X') false pad w
        len := st.len + (rendered u 16 (c == 'X') false pad w).length
        ap := ap
        format_buf := store st.format_buf 0 (scratch 16 (c == 'X') u) } := by
  have h1 : c ≠ 'd' := by rcases hc with h | h <;> (rw [h]; decide)
  have h2 : c ≠ 'u' := by rcases hc with h | h <;> (rw [h]; decide)
  unfold conversion
  rw [if_neg h1, if_neg h2, if_pos hc, hap]
  simp only [Nat.mod_eq_of_lt hu]
  rw [putint_sixteen _ _ _ _ _ _ _ hu]

theorem directive_decimal (w : Nat) (c : Char) (hw : w < 2147483648)
    (hc : is_digit c = false) (hl : c ≠ 'l') :
    directive (decimal w ++ [c]) = some (' ', (w : Int), c, []) := by
  rw [directive_digits (decimal w) c [] (decimal_digits w) hc hl, pad_of_decimal,
    width_acc_decimal, wrapInt32_of_lt w hw]

theorem directive_zero_decimal (w : Nat) (c : Char) (hw : w < 2147483648)
    (hc : is_digit c = false) (hl : c ≠ 'l') :
    directive ('0' :: decimal w ++ [c]) = some ('0', (w : Int), c, []) := by
  have hD : ∀ x ∈ '0' :: decimal w, is_digit x = true := by
    intro x hx
    rcases List.mem_cons.mp hx with h | h
    · rw [h]; decide
    · exact decimal_digits w x h
  rw [directive_digits ('0' :: decimal w) c [] hD hc hl, pad_of_zero_decimal,
    width_acc_zero_decimal, wrapInt32_of_lt w hw]

theorem sprintf_padded (format_buf : Nat → Char) (c : Char) (n w base : Nat) (upcase : Bool)
    (arg : Arg) (hw : w < 2147483648) (hc : is_digit c = false) (hl : c ≠ 'l')
    (hb : 0 < base) (hb1 : base ≤ 128)
    (hconv : conversion c ' ' (w : Int) ⟨[], [], 0, [arg], format_buf⟩ =
      some ⟨[], [] ++ rendered n base upcase false ' ' (w : Int),
        0 + (rendered n base upcase false ' ' (w : Int)).length, [],
        store format_buf 0 (scratch base upcase n)⟩) :
    sprintf format_buf ('%' :: decimal w ++ [c]) [arg] =
      some (List.replicate (w - (numeral base upcase n).length) ' ' ++ numeral base upcase n ++
        [NUL], max w (numeral base upcase n).length) := by
  have h := sprintf_single format_buf (decimal w ++ [c]) ' ' (w : Int) c [arg] _
    (directive_decimal w c hw hc hl) hconv
  rw [show ('%' :: decimal w ++ [c]) = '%' :: (decimal w ++ [c]) from rfl, h,
    rendered_unsigned n base upcase ' ' w hb hb1]
  simp only [List.nil_append, Nat.zero_add, List.length_append, List.length_replicate,
    Option.some.injEq, Prod.mk.injEq, true_and]
  omega

theorem sprintf_zero_neg (format_buf : Nat → Char) (n : Int) (w : Nat)
    (hlo : -2147483648 ≤ n) (hneg : n < 0) (hw : w < 2147483648) :
    sprintf format_buf ('%' :: '0' :: decimal w ++ ['d']) [Arg.int n] =
      some ('-' :: (List.replicate (w - 1 - (numeral 10 false n.natAbs).length) '0' ++
        numeral 10 false n.natAbs) ++ [NUL],
        max w ((numeral 10 false n.natAbs).length + 1)) := by
  have h := sprintf_single format_buf ('0' :: decimal w ++ ['d']) '0' (w : Int) 'd'
    [Arg.int n] _ (directive_zero_decimal w 'd' hw (by decide) (by decide))
    (conversion_d_neg n '0' w _ [] hlo hneg rfl)
  rw [show ('%' :: '0' :: decimal w ++ ['d']) = '%' :: ('0' :: decimal w ++ ['d']) from rfl, h,
    rendered_signed_zero _ 10 false w (by decide) (by decide) hw]
  simp only [List.nil_append, Nat.zero_add, List.length_append, List.length_replicate,
    List.length_cons, Option.some.injEq, Prod.mk.injEq, true_and]
  omega

theorem sprintf_space_neg (format_buf : Nat → Char) (n : Int) (w : Nat)
    (hlo : -2147483648 ≤ n) (hneg : n < 0) (hw : w < 2147483648) :
    sprintf format_buf ('%' :: decimal w ++ ['d']) [Arg.int n] =
      some (List.replicate (w - 1 - (numeral 10 false n.natAbs).length) ' ' ++
        '-' :: numeral 10 false n.natAbs ++ [NUL],
        max w ((numeral 10 false n.natAbs).length + 1)) := by
  have h := sprintf_single format_buf (decimal w ++ ['d']) ' ' (w : Int) 'd'
    [Arg.int n] _ (directive_decimal w 'd' hw (by decide) (by decide))
    (conversion_d_neg n ' ' w _ [] hlo hneg rfl)
  rw [show ('%' :: decimal w ++ ['d']) = '%' :: (decimal w ++ ['d']) from rfl, h,
    rendered_signed_space _ 10 false w (by decide) (by decide) hw]
  simp only [List.nil_append, Nat.zero_add, List.length_append, List.length_replicate,
    List.length_cons, List.append_assoc, List.cons_append, Option.some.injEq, Prod.mk.injEq,
    true_and]
  omega

theorem sprintf_bare (format_buf : Nat → Char) (c : Char) (u : Nat) (hc : c = 'X' ∨ c = 'x')
    (hu : u < 4294967296) :
    sprintf format_buf ['%', c] [Arg.uint u] =
      some (numeral 16 (c == 'X') u ++ [NUL], (numeral 16 (c == 'X') u).length) := by
  have hd : is_digit c = false := by rcases hc with h | h <;> (rw [h]; decide)
  have hl : c ≠ 'l' := by rcases hc with h | h <;> (rw [h]; decide)
  have h := sprintf_padded format_buf c u 0 16 (c == 'X') (Arg.uint u) (by decide) hd hl
    (by decide) (by decide) (conversion_x c u ' ' (0 : Nat) _ [] hc hu rfl)
  have e : ('%' :: decimal 0 ++ [c]) = ['%', c] := rfl
  rw [e] at h
  rw [h]
  simp

theorem digit_char_lower_mem (d : Nat) (hd : d < 16) :
    digit_char false d ∈ "0123456789abcdef".toList := by
  interval_cases d <;> decide

theorem digit_char_upper_mem (d : Nat) (hd : d < 16) :
    digit_char true d ∈ "0123456789ABCDEF".toList := by
  interval_cases d <;> decide

theorem digit_char_toUpper (d : Nat) (hd : d < 16) :
    digit_char true d = (digit_char false d).toUpper := by
  interval_cases d <;> decide

/-! ## Scanning a format followed by another -/

theorem dropWhile_append_ne (p : Char → Bool) (s g : List Char) (h : s.dropWhile p ≠ []) :
    (s ++ g).dropWhile p = s.dropWhile p ++ g ∧ (s ++ g).takeWhile p = s.takeWhile p := by
  induction s with
  | nil => simp at h
  | cons x s ih =>
    by_cases hx : p x = true
    · rw [List.dropWhile_cons_of_pos hx] at h
      have := ih h
      simp [List.dropWhile_cons, List.takeWhile_cons, hx, this]
    · simp [List.dropWhile_cons, List.takeWhile_cons, hx]

theorem pad_of_append (s g : List Char) (h : s ≠ []) : pad_of (s ++ g) = pad_of s := by
  cases s with
  | nil => exact absurd rfl h
  | cons x s => rfl

theorem directive_append (s g : List Char) (pad : Char) (w : Int) (c : Char) (r : List Char)
    (h : directive s = some (pad, w, c, r)) :
    directive (s ++ g) = some (pad, w, c, r ++ g) := by
  rw [directive_eq] at h ⊢
  cases hd : s.dropWhile is_digit with
  | nil => rw [hd] at h; cases h
  | cons c0 r0 =>
    have hne : s.dropWhile is_digit ≠ [] := by rw [hd]; simp
    have hs : s ≠ [] := by
      intro h0; rw [h0] at hd; simp at hd
    rw [(dropWhile_append_ne _ s g hne).1, (dropWhile_append_ne _ s g hne).2,
      pad_of_append s g hs, hd]
    rw [hd] at h
    simp only [List.cons_append]
    simp only at h
    by_cases hl : c0 = 'l'
    · simp only [hl, if_true] at h ⊢
      cases r0 with
      | nil => cases h
      | cons c1 r1 =>
        simp only [Option.some.injEq, Prod.mk.injEq, List.cons_append] at h ⊢
        obtain ⟨h1, h2, h3, h4⟩ := h
        exact ⟨h1, h2, h3, by rw [h4]⟩
    · simp only [hl, if_false, Option.some.injEq, Prod.mk.injEq] at h ⊢
      obtain ⟨h1, h2, h3, h4⟩ := h
      exact ⟨h1, h2, h3, by rw [h4]⟩

theorem directive_suffix (s : List Char) (pad : Char) (w : Int) (c : Char) (r : List Char)
    (h : directive s = some (pad, w, c, r)) : ∀ x ∈ r, x ∈ s := by
  rw [directive_eq] at h
  have hsub : ∀ x ∈ s.dropWhile is_digit, x ∈ s :=
    fun x hx => (List.dropWhile_suffix is_digit).subset hx
  cases hd : s.dropWhile is_digit with
  | nil => rw [hd] at h; cases h
  | cons c0 r0 =>
    rw [hd] at h hsub
    simp only at h
    by_cases hl : c0 = 'l'
    · simp only [hl, if_true] at h
      cases r0 with
      | nil => cases h
      | cons c1 r1 =>
        simp only [Option.some.injEq, Prod.mk.injEq] at h
        obtain ⟨_, _, _, rfl⟩ := h
        intro x hx
        exact hsub x (List.mem_cons_of_mem _ (List.mem_cons_of_mem _ hx))
    · simp only [hl, if_false, Option.some.injEq, Prod.mk.injEq] at h
      obtain ⟨_, _, _, rfl⟩ := h
      intro x hx
      exact hsub x (List.mem_cons_of_mem _ hx)

theorem putint_frame (st : State) (x : List Char) (ap : List Arg) (n base : Nat)
    (upcase sign : Bool) (pad : Char) (w : Int) :
    State.putint { st with s := x } ap n base upcase sign pad w =
      (st.putint ap n base upcase sign pad w).map (fun st1 => { st1 with s := x }) := by
  unfold State.putint
  simp only
  cases str_putint st.format_buf st.str n base upcase sign pad w <;> rfl

theorem conversion_frame (c pad : Char) (w : Int) (st : State) (x : List Char) :
    conversion c pad w { st with s := x } =
      (conversion c pad w st).map (fun st1 => { st1 with s := x }) := by
  unfold conversion
  simp only
  split_ifs
  · cases st.ap with
    | nil => rfl
    | cons a ap =>
      cases a <;> simp only [Option.map_none']
      split_ifs <;> exact putint_frame _ _ _ _ _ _ _ _ _
  · cases st.ap with
    | nil => rfl
    | cons a ap =>
      cases a <;> simp only [Option.map_none']
      exact putint_frame _ _ _ _ _ _ _ _ _
  · cases st.ap with
    | nil => rfl
    | cons a ap =>
      cases a <;> simp only [Option.map_none']
      exact putint_frame _ _ _ _ _ _ _ _ _
  · cases st.ap with
    | nil => rfl
    | cons a ap =>
      cases a <;> simp only [Option.map_none']
      rfl
  · rfl
  · rfl

theorem step_append (c : Char) (st st1 : State) (g : List Char)
    (h : sprintf_step c st = some st1) :
    sprintf_step c { st with s := st.s ++ g } = some { st1 with s := st1.s ++ g } ∧
      ∀ x ∈ st1.s, x ∈ st.s := by
  unfold sprintf_step at h ⊢
  by_cases hp : c = '%'
  · simp only [hp, if_true] at h ⊢
    cases hd : directive st.s with
    | none => rw [hd] at h; cases h
    | some q =>
      obtain ⟨pad, w, c1, r⟩ := q
      rw [hd] at h
      simp only at h
      rw [directive_append _ g _ _ _ _ hd]
      simp only
      have hs := conversion_s _ _ _ _ _ h
      simp only at hs
      have hf := conversion_frame c1 pad w { st with s := r } (r ++ g)
      simp only [h, Option.map_some'] at hf
      rw [hf, hs]
      exact ⟨rfl, directive_suffix _ _ _ _ _ hd⟩
  · simp only [hp, if_false, Option.some.injEq] at h ⊢
    subst h
    exact ⟨rfl, fun x hx => hx⟩

theorem run_append (n : Nat) : ∀ (st st1 : State) (g : List Char), st.s.length ≤ n →
    NUL ∉ st.s → run st = some st1 → run { st with s := st.s ++ g } = run { st1 with s := g } := by
  induction n with
  | zero =>
    intro st st1 g hn _ h
    have hs : st.s = [] := List.length_eq_zero.mp (by omega)
    rw [run_nil st hs] at h
    cases h
    rw [hs]; rfl
  | succ n ih =>
    intro st st1 g hn hnul h
    cases hs : st.s with
    | nil =>
      rw [run_nil st hs] at h
      cases h
      rfl
    | cons c s =>
      have hc : c ≠ NUL := by
        intro hc; apply hnul; rw [hs, hc]; exact List.mem_cons_self _ _
      rw [run_cons st c s hs hc] at h
      rw [run_cons { st with s := (c :: s) ++ g } c (s ++ g) rfl hc]
      cases hstep : sprintf_step c { st with s := s } with
      | none => rw [hstep] at h; cases h
      | some st2 =>
        rw [hstep] at h
        simp only at h
        obtain ⟨ha, hsub⟩ := step_append c { st with s := s } st2 g hstep
        simp only at ha hsub
        simp only [ha]
        have hle := (step_advance _ _ _ hstep).s_le
        simp only at hle
        rw [hs] at hn
        simp only [List.length_cons] at hn
        exact ih st2 st1 g (by omega)
          (fun hx => hnul (by rw [hs]; exact List.mem_cons_of_mem _ (hsub _ hx))) h

theorem run_final (fuel : Nat) : ∀ (st st1 : State), sprintf_loop fuel st = some st1 →
    NUL ∉ st.s → st1.s = [] := by
  induction fuel with
  | zero => intro st st1 h; cases h
  | succ fuel ih =>
    intro st st1 h hnul
    rw [sprintf_loop] at h
    cases hs : st.s with
    | nil => rw [hs] at h; cases h; exact hs
    | cons c s =>
      rw [hs] at h
      simp only at h
      have hc : c ≠ NUL := by
        intro hc; apply hnul; rw [hs, hc]; exact List.mem_cons_self _ _
      rw [if_neg hc] at h
      cases hstep : sprintf_step c { st with s := s } with
      | none => rw [hstep] at h; cases h
      | some st2 =>
        rw [hstep] at h
        obtain ⟨_, hsub⟩ := step_append c { st with s := s } st2 [] hstep
        exact ih st2 st1 h
          (fun hx => hnul (by rw [hs]; exact List.mem_cons_of_mem _ (hsub _ hx)))

theorem takes_some (c : Char) (r : Option (List Kind)) (ks : List Kind)
    (h : takes c r = some ks) :
    ∃ ks1, r = some ks1 ∧ ks = (match kind_of c with | some k => [k] | none => []) ++ ks1 := by
  unfold takes at h
  cases hk : kind_of c with
  | none => rw [hk] at h; exact ⟨ks, h, rfl⟩
  | some k =>
    rw [hk] at h
    cases r with
    | none => cases h
    | some ks1 =>
      simp only [Option.map_some', Option.some.injEq] at h
      exact ⟨ks1, rfl, h.symm⟩

theorem expects_append (f1 g : List Char) : ∀ (m : Mode) (ks : List Kind), NUL ∉ f1 →
    expects m f1 = some ks →
    expects m (f1 ++ g) = (expects Mode.text g).map (fun l => ks ++ l) := by
  induction f1 with
  | nil =>
    intro m ks _ h
    cases m with
    | text =>
      simp only [expects, Option.some.injEq] at h
      subst h
      simp
    | head => cases h
    | long => cases h
  | cons c s ih =>
    intro m ks hnul h
    have hc : c ≠ NUL := fun hc => hnul (hc ▸ List.mem_cons_self _ _)
    have hs : NUL ∉ s := fun hx => hnul (List.mem_cons_of_mem _ hx)
    have htakes : ∀ ks0, takes c (expects Mode.text s) = some ks0 →
        takes c (expects Mode.text (s ++ g)) =
          (expects Mode.text g).map (fun l => ks0 ++ l) := by
      intro ks0 h0
      obtain ⟨ks1, h1, h2⟩ := takes_some _ _ _ h0
      rw [ih Mode.text ks1 hs h1]
      unfold takes
      cases hk : kind_of c with
      | none => rw [hk] at h2; simp only [List.nil_append] at h2; rw [h2]
      | some k =>
        rw [hk] at h2
        simp only [List.singleton_append] at h2
        rw [h2]
        cases expects Mode.text g <;> rfl
    cases m with
    | text =>
      simp only [List.cons_append, expects, if_neg hc] at h ⊢
      by_cases hp : c = '%'
      · simp only [hp, if_true] at h ⊢
        exact ih Mode.head ks hs h
      · simp only [hp, if_false] at h ⊢
        exact ih Mode.text ks hs h
    | head =>
      simp only [List.cons_append, expects] at h ⊢
      by_cases hd : is_digit c = true
      · simp only [hd, if_true] at h ⊢
        exact ih Mode.head ks hs h
      · simp only [hd, Bool.false_eq_true, if_false] at h ⊢
        by_cases hl : c = 'l'
        · simp only [hl, if_true] at h ⊢
          exact ih Mode.long ks hs h
        · simp only [hl, if_false] at h ⊢
          exact htakes ks h
    | long =>
      simp only [List.cons_append, expects] at h ⊢
      exact htakes ks h

theorem expects_directive (D : List Char) (long : Bool) (c : Char) (f2 : List Char)
    (hD : ∀ x ∈ D, is_digit x = true) (hc : long = false → is_digit c = false ∧ c ≠ 'l') :
    expects Mode.text ('%' :: D ++ (if long then ['l'] else []) ++ c :: f2) =
      takes c (expects Mode.text f2) := by
  have e : ('%' :: D ++ (if long then ['l'] else []) ++ c :: f2) =
      '%' :: (D ++ ((if long then ['l'] else []) ++ c :: f2)) := by simp
  rw [e, expects, if_neg (by decide), if_pos rfl, expects_head_eq]
  cases long with
  | true =>
    simp only [if_true, List.singleton_append]
    rw [(takeWhile_digits D 'l' (c :: f2) hD (by decide)).2]
    simp
  | false =>
    obtain ⟨h1, h2⟩ := hc rfl
    simp only [Bool.false_eq_true, if_false, List.nil_append]
    rw [(takeWhile_digits D c f2 hD h1).2]
    simp [h2]

theorem run_at_directive (format_buf : Nat → Char) (f1 D : List Char) (long : Bool) (c : Char)
    (f2 : List Char) (ap : List Arg) (st1 : State) (hnul : NUL ∉ f1)
    (hrun : run ⟨f1, [], 0, ap, format_buf⟩ = some st1) (hD : ∀ x ∈ D, is_digit x = true)
    (hc : long = false → is_digit c = false ∧ c ≠ 'l') :
    run ⟨f1 ++ ('%' :: D ++ (if long then ['l'] else []) ++ c :: f2), [], 0, ap, format_buf⟩ =
      match conversion c (pad_of D) (width_acc D 0) { st1 with s := f2 } with
      | none => none
      | some st2 => run st2 := by
  have h := run_append f1.length ⟨f1, [], 0, ap, format_buf⟩ st1
    ('%' :: D ++ (if long then ['l'] else []) ++ c :: f2) (Nat.le_refl _) hnul hrun
  simp only at h
  rw [h]
  have hd : directive (D ++ ((if long then ['l'] else []) ++ c :: f2)) =
      some (pad_of D, width_acc D 0, c, f2) := by
    cases long with
    | true => simpa using directive_digits_long D c f2 hD
    | false =>
      obtain ⟨h1, h2⟩ := hc rfl
      simpa using directive_digits D c f2 hD h1 h2
  rw [run_directive _ (D ++ ((if long then ['l'] else []) ++ c :: f2)) f2 _ _ c (by simp) hd]

theorem take_append_split {α : Type} (a b : List α) : ∀ l : List α,
    l.take (a ++ b).length = a ++ b → l.take a.length = a ∧ (l.drop a.length).take b.length = b := by
  induction a with
  | nil => intro l h; simpa using h
  | cons x a ih =>
    intro l h
    cases l with
    | nil => simp at h
    | cons y l =>
      simp only [List.cons_append, List.length_cons, List.take_succ_cons, List.cons.injEq] at h
      obtain ⟨h1, h2⟩ := h
      have := ih l h2
      simp only [List.length_cons, List.take_succ_cons, List.drop_succ_cons, List.cons.injEq]
      exact ⟨⟨h1, this.1⟩, this.2⟩

theorem kind_of_none_iff (c : Char) : kind_of c = none ↔ c ∉ ['d', 'u', 'x', 'X', 's'] := by
  unfold kind_of
  simp only [List.mem_cons, List.mem_singleton, List.not_mem_nil, or_false]
  split_ifs with h1 h2 h3
  · simp [h1]
  · simp only [reduceCtorEq, false_iff, not_not]
    rcases h2 with h | h | h
    · exact Or.inr (Or.inl h)
    · exact Or.inr (Or.inr (Or.inr (Or.inl h)))
    · exact Or.inr (Or.inr (Or.inl h))
  · simp [h3]
  · simp only [true_iff]
    intro h
    rcases h with h | h | h | h | h
    · exact h1 h
    · exact h2 (Or.inl h)
    · exact h2 (Or.inr (Or.inr h))
    · exact h2 (Or.inr (Or.inl h))
    · exact h3 h

theorem drop_succ_of_cons {α : Type} (l : List α) (n : Nat) (a : α) (t : List α)
    (h : l.drop n = a :: t) : l.drop (n + 1) = t := by
  rw [← List.drop_drop, h]
  rfl

theorem rendered_eq_spec (n base : Nat) (upcase sign : Bool) (pad : Char) (w : Int)
    (hb : 0 < base) (hb1 : base ≤ 128)
    (hw : sign = true → wrapInt32 (w - 1) = w - 1) :
    rendered n base upcase sign pad w = spec_putint n base upcase sign pad w := by
  unfold rendered spec_putint
  rw [scratch_reverse base n upcase hb hb1, scratch_length]
  cases sign with
  | false =>
    have : ∀ x : Int, (max 0 x).toNat = x.toNat := by intro x; omega
    simp [this]
  | true =>
    rw [hw rfl]
    have : ∀ x : Int, (max 0 x).toNat = x.toNat := by intro x; omega
    by_cases hp : pad = '0' <;> simp [hp, this]

theorem spec_putint_length (n base : Nat) (upcase sign : Bool) (pad : Char) (w : Int) :
    (((spec_putint n base upcase sign pad w).length : Nat) : Int) =
      max w (((numeral base upcase n).length : Int) + (if sign = true then 1 else 0)) := by
  unfold spec_putint
  cases sign <;> by_cases hp : pad = '0' <;>
    simp only [hp, List.length_append, List.length_replicate, List.length_cons, List.length_nil,
      if_true, if_false, and_true, and_false, true_and, false_and, not_true_eq_false,
      not_false_eq_true, Bool.false_eq_true, ne_eq] <;>
    omega

theorem digit_char_ne_zero (upcase : Bool) (d : Nat) (h0 : d ≠ 0) (hd : d < 36) :
    digit_char upcase d ≠ '0' := by
  cases upcase <;> interval_cases d <;> first | exact absurd rfl h0 | decide

theorem digit_char_letters (upcase : Bool) (d : Nat) :
    digit_char upcase d =
      if d ≤ 9 then Char.ofNat ('0'.toNat + d)
      else Char.ofNat ((if upcase = true then 'A'.toNat else 'a'.toNat) + (d - 10)) := by
  have c0 : '0'.toNat = 48 := by decide
  have c1 : 'A'.toNat = 65 := by decide
  have c2 : 'a'.toNat = 97 := by decide
  unfold digit_char
  rw [c0, c1, c2]
  by_cases h : d ≤ 9
  · rw [if_pos h, if_pos h, Nat.add_comm]
  · rw [if_neg h, if_neg h]
    cases upcase
    · simp only [Bool.false_eq_true, if_false]
      congr 1; omega
    · simp only [if_true]
      congr 1; omega

theorem store_above (l : List Char) : ∀ (s : Nat → Char) (i j : Nat), i + l.length ≤ j →
    store s i l j = s j := by
  induction l with
  | nil => intro s i j _; rfl
  | cons c l ih =>
    intro s i j h
    simp only [List.length_cons] at h
    rw [store, ih _ _ _ (by omega), Function.update_noteq (by omega)]

theorem numeral_zero (base : Nat) (upcase : Bool) : numeral base upcase 0 = ['0'] := by
  cases upcase <;> simp [numeral, digits_of, digits_fuel, digit_char]

theorem sprintf_header (format_buf : Nat → Char) (hdr : List Char) (pad c : Char)
    (n w base : Nat) (upcase : Bool) (arg : Arg)
    (hd : directive (hdr ++ [c]) = some (pad, (w : Int), c, []))
    (hb : 0 < base) (hb1 : base ≤ 128)
    (hconv : conversion c pad (w : Int) ⟨[], [], 0, [arg], format_buf⟩ =
      some ⟨[], [] ++ rendered n base upcase false pad (w : Int),
        0 + (rendered n base upcase false pad (w : Int)).length, [],
        store format_buf 0 (scratch base upcase n)⟩) :
    sprintf format_buf ('%' :: hdr ++ [c]) [arg] =
      some (List.replicate (w - (numeral base upcase n).length) pad ++ numeral base upcase n ++
        [NUL], max w (numeral base upcase n).length) := by
  have h := sprintf_single format_buf (hdr ++ [c]) pad (w : Int) c [arg] _ hd hconv
  rw [show ('%' :: hdr ++ [c]) = '%' :: (hdr ++ [c]) from rfl, h,
    rendered_unsigned n base upcase pad w hb hb1]
  simp only [List.nil_append, Nat.zero_add, List.length_append, List.length_replicate,
    Option.some.injEq, Prod.mk.injEq, true_and]
  omega

theorem directive_flag_decimal (zero : Bool) (w : Nat) (c : Char) (hw : w < 2147483648)
    (hc : is_digit c = false) (hl : c ≠ 'l') :
    directive (((if zero = true then ['0'] else []) ++ decimal w) ++ [c]) =
      some (if zero = true then '0' else ' ', (w : Int), c, []) := by
  cases zero with
  | true => simpa using directive_zero_decimal w c hw hc hl
  | false => simpa using directive_decimal w c hw hc hl

theorem conversion_nonneg (format_buf : Nat → Char) (c pad : Char) (n : Nat) (w : Int)
    (hc : c ∈ ['d', 'u', 'x', 'X']) (hn : n < conv_bound c) :
    conversion c pad w ⟨[], [], 0, [conv_arg c n], format_buf⟩ =
      some ⟨[], [] ++ rendered n (conv_base c) (c == 'X') false pad w,
        0 + (rendered n (conv_base c) (c == 'X') false pad w).length, [],
        store format_buf 0 (scratch (conv_base c) (c == 'X') n)⟩ := by
  simp only [List.mem_cons, List.mem_singleton, List.not_mem_nil, or_false] at hc
  rcases hc with rfl | rfl | rfl | rfl
  · exact conversion_d_nonneg n pad w _ [] (by simpa [conv_bound] using hn) rfl
  · exact conversion_u n pad w _ [] (by simpa [conv_bound] using hn) rfl
  · exact conversion_x 'x' n pad w _ [] (Or.inr rfl) (by simpa [conv_bound] using hn) rfl
  · exact conversion_x 'X' n pad w _ [] (Or.inl rfl) (by simpa [conv_bound] using hn) rfl

theorem conv_char_facts (c : Char) (hc : c ∈ ['d', 'u', 'x', 'X']) :
    is_digit c = false ∧ c ≠ 'l' ∧ 0 < conv_base c ∧ conv_base c ≤ 128 ∧ 0 < conv_bound c := by
  simp only [List.mem_cons, List.mem_singleton, List.not_mem_nil, or_false] at hc
  rcases hc with rfl | rfl | rfl | rfl <;> decide

theorem parse_digits_foldl (D : List Char) : ∀ acc : Nat, (∀ x ∈ D, is_digit x = true) →
    parse_digits 10 D acc = some (D.foldl (fun a c => a * 10 + (c.toNat - '0'.toNat)) acc) := by
  induction D with
  | nil => intro acc _; rfl
  | cons c D ih =>
    intro acc hD
    have hc : is_digit c = true := hD c (List.mem_cons_self _ _)
    have hr := (is_digit_iff c).mp hc
    have c0 : '0'.toNat = 48 := by decide
    rw [parse_digits, digit_value_of_is_digit c hc]
    simp only
    rw [if_pos (by omega), ih _ (fun x hx => hD x (List.mem_cons_of_mem _ hx)),
      List.foldl_cons, c0]

theorem width_acc_value (D : List Char) (hD : ∀ x ∈ D, is_digit x = true) :
    width_acc D 0 = wrapInt32 (decimal_value D : Int) :=
  width_acc_zero D _ hD (parse_digits_foldl D 0 hD)

/-! ## Independence of the scratch buffer and of the output already stored -/

theorem digit_loop_chars (room : Nat) : ∀ (s : Nat → Char) (i n base : Nat) (upcase : Bool),
    digit_loop room s i n base upcase =
      (digit_chars room n base upcase).map (fun l => (store s i l, i + l.length)) := by
  induction room with
  | zero => intro s i n base upcase; rfl
  | succ room ih =>
    intro s i n base upcase
    rw [digit_loop, digit_chars]
    by_cases h : n / base > 0
    · simp only [h, if_true]
      rw [ih]
      cases digit_chars room (n / base) base upcase with
      | none => rfl
      | some l =>
        simp only [Option.map_some', store, List.length_cons, Option.some.injEq, Prod.mk.injEq,
          true_and]
        omega
    · simp only [h, if_false, Option.map_some', store, List.length_cons, List.length_nil]

theorem str_putint_chars (format_buf : Nat → Char) (str : List Char) (n base : Nat)
    (upcase sign : Bool) (pad : Char) (pad_len : Int) :
    (str_putint format_buf str n base upcase sign pad pad_len).map (fun r => r.2) =
      (digit_chars FORMAT_BUF_SIZE n base upcase).map (fun l =>
        (emit_loop l.length (store (fun _ => NUL) 0 l)
          (if sign && pad != '0' then
            put (if (if sign then wrapInt32 (pad_len - 1) else pad_len) > (l.length : Int) then
              pad_loop ((if sign then wrapInt32 (pad_len - 1) else pad_len) -
                (l.length : Int)).toNat (if sign && pad == '0' then put (str, 0) '-' else (str, 0))
                pad
              else (if sign && pad == '0' then put (str, 0) '-' else (str, 0))) '-'
          else
            (if (if sign then wrapInt32 (pad_len - 1) else pad_len) > (l.length : Int) then
              pad_loop ((if sign then wrapInt32 (pad_len - 1) else pad_len) -
                (l.length : Int)).toNat (if sign && pad == '0' then put (str, 0) '-' else (str, 0))
                pad
              else (if sign && pad == '0' then put (str, 0) '-' else (str, 0)))))) := by
  unfold str_putint
  rw [digit_loop_chars]
  cases digit_chars FORMAT_BUF_SIZE n base upcase with
  | none => rfl
  | some l =>
    have h1 := store_read l format_buf 0
    have h2 := store_read l (fun _ => NUL) 0
    simp only [Nat.zero_add] at h1 h2
    simp only [Option.map_some', Nat.zero_add, emit_loop_eq, h1, h2]

theorem str_putint_buffer_free (b1 b2 : Nat → Char) (str : List Char) (n base : Nat)
    (upcase sign : Bool) (pad : Char) (pad_len : Int) :
    (str_putint b1 str n base upcase sign pad pad_len).map (fun r => r.2) =
      (str_putint b2 str n base upcase sign pad pad_len).map (fun r => r.2) := by
  rw [str_putint_chars b1, str_putint_chars b2]

theorem Shifted.result_some {pre : List Char} {m : Nat} {x x1 : State}
    (h : Shifted pre m x x1) : ShiftedResult pre m (some x) (some x1) :=
  Or.inr ⟨x, x1, rfl, rfl, h⟩

theorem putint_shift (pre : List Char) (m : Nat) (st st1 : State) (h : Shifted pre m st st1)
    (ap : List Arg) (n base : Nat) (upcase sign : Bool) (pad : Char) (w : Int)
    (hb : 2 ≤ base) (hn : n < base ^ 32) :
    ShiftedResult pre m (st.putint ap n base upcase sign pad w)
      (st1.putint ap n base upcase sign pad w) := by
  rw [putint_eq st ap n base upcase sign pad w hb hn,
    putint_eq st1 ap n base upcase sign pad w hb hn]
  apply Shifted.result_some
  exact ⟨h.s_eq, by simp only [h.str_eq, List.append_assoc],
    by simp only [h.len_eq, Nat.add_assoc], rfl⟩

theorem conversion_shift (pre : List Char) (m : Nat) (st st1 : State) (h : Shifted pre m st st1)
    (c pad : Char) (w : Int) :
    ShiftedResult pre m (conversion c pad w st) (conversion c pad w st1) := by
  have h10 : ∀ x : Nat, x < 4294967296 → x < 10 ^ 32 :=
    fun x hx => lt_of_lt_of_le hx (by norm_num)
  have h16 : ∀ x : Nat, x < 4294967296 → x < 16 ^ 32 :=
    fun x hx => lt_of_lt_of_le hx (by norm_num)
  unfold conversion
  rw [h.ap_eq]
  split_ifs
  · cases st.ap with
    | nil => exact Or.inl ⟨rfl, rfl⟩
    | cons a ap =>
      cases a with
      | int n =>
        simp only
        split_ifs <;>
          exact putint_shift pre m st st1 h _ _ 10 _ _ _ _ (by decide) (h10 _ (toUInt32_lt _))
      | uint u => exact Or.inl ⟨rfl, rfl⟩
      | str t => exact Or.inl ⟨rfl, rfl⟩
  · cases st.ap with
    | nil => exact Or.inl ⟨rfl, rfl⟩
    | cons a ap =>
      cases a with
      | int n => exact Or.inl ⟨rfl, rfl⟩
      | uint u =>
        exact putint_shift pre m st st1 h _ _ 10 _ _ _ _ (by decide)
          (h10 _ (Nat.mod_lt _ (by decide)))
      | str t => exact Or.inl ⟨rfl, rfl⟩
  · cases st.ap with
    | nil => exact Or.inl ⟨rfl, rfl⟩
    | cons a ap =>
      cases a with
      | int n => exact Or.inl ⟨rfl, rfl⟩
      | uint u =>
        exact putint_shift pre m st st1 h _ _ 16 _ _ _ _ (by decide)
          (h16 _ (Nat.mod_lt _ (by decide)))
      | str t => exact Or.inl ⟨rfl, rfl⟩
  · cases st.ap with
    | nil => exact Or.inl ⟨rfl, rfl⟩
    | cons a ap =>
      cases a with
      | int n => exact Or.inl ⟨rfl, rfl⟩
      | uint u => exact Or.inl ⟨rfl, rfl⟩
      | str t =>
        apply Shifted.result_some
        simp only [str_putchars_eq]
        exact ⟨h.s_eq, by simp only [h.str_eq, List.append_assoc],
          by simp only [h.len_eq, Nat.add_assoc], rfl⟩
  · apply Shifted.result_some
    exact ⟨h.s_eq, by simp only [State.putc, str_putc, h.str_eq, List.append_assoc],
      by simp only [State.putc, str_putc, h.len_eq, Nat.add_assoc], h.ap_eq⟩
  · apply Shifted.result_some
    exact ⟨h.s_eq, by simp only [State.putc, str_putc, h.str_eq, List.append_assoc],
      by simp only [State.putc, str_putc, h.len_eq, Nat.add_assoc], h.ap_eq⟩

theorem step_shift (pre : List Char) (m : Nat) (st st1 : State) (h : Shifted pre m st st1)
    (c : Char) : ShiftedResult pre m (sprintf_step c st) (sprintf_step c st1) := by
  unfold sprintf_step
  rw [h.s_eq]
  split_ifs
  · cases directive st.s with
    | none => exact Or.inl ⟨rfl, rfl⟩
    | some q =>
      obtain ⟨pad, w, c1, r⟩ := q
      simp only
      exact conversion_shift pre m { st with s := r } { st1 with s := r }
        ⟨rfl, h.str_eq, h.len_eq, h.ap_eq⟩ c1 pad w
  · apply Shifted.result_some
    exact ⟨h.s_eq, by simp only [State.putc, str_putc, h.str_eq, List.append_assoc],
      by simp only [State.putc, str_putc, h.len_eq, Nat.add_assoc], h.ap_eq⟩

theorem loop_shift (pre : List Char) (m : Nat) (fuel : Nat) : ∀ (st st1 : State),
    Shifted pre m st st1 →
    ShiftedResult pre m (sprintf_loop fuel st) (sprintf_loop fuel st1) := by
  induction fuel with
  | zero => intro st st1 _; exact Or.inl ⟨rfl, rfl⟩
  | succ fuel ih =>
    intro st st1 h
    rw [sprintf_loop, sprintf_loop, h.s_eq]
    cases hs : st.s with
    | nil => exact h.result_some
    | cons c s =>
      simp only
      split_ifs
      · exact h.result_some
      · have hstep := step_shift pre m { st with s := s } { st1 with s := s }
          ⟨rfl, h.str_eq, h.len_eq, h.ap_eq⟩ c
        rcases hstep with ⟨h1, h2⟩ | ⟨x, x1, h1, h2, hx⟩
        · rw [h1, h2]; exact Or.inl ⟨rfl, rfl⟩
        · rw [h1, h2]; exact ih x x1 hx

theorem run_shift (pre : List Char) (m : Nat) (st st1 : State) (h : Shifted pre m st st1) :
    ShiftedResult pre m (run st) (run st1) := by
  unfold run
  rw [h.s_eq]
  exact loop_shift pre m _ st st1 h

theorem sprintf_buffer_free (b1 b2 : Nat → Char) (format : List Char) (ap : List Arg) :
    sprintf b1 format ap = sprintf b2 format ap := by
  have h := run_shift [] 0 ⟨format, [], 0, ap, b1⟩ ⟨format, [], 0, ap, b2⟩
    ⟨rfl, rfl, rfl, rfl⟩
  unfold sprintf
  rcases h with ⟨h1, h2⟩ | ⟨x, x1, h1, h2, hx⟩
  · rw [h1, h2]
  · rw [h1, h2]
    have e1 := hx.str_eq
    have e2 := hx.len_eq
    simp only [List.nil_append, Nat.zero_add] at e1 e2
    simp only [e1, e2]

/-! ## Formats that end inside a directive -/

theorem takes_isSome (c : Char) (r : Option (List Kind)) (h : r.isSome = true) :
    (takes c r).isSome = true := by
  unfold takes
  cases r with
  | none => cases h
  | some ks => cases kind_of c <;> rfl

theorem takes_none (c : Char) (r : Option (List Kind)) (h : takes c r = none) : r = none := by
  cases r with
  | none => rfl
  | some ks =>
    have := takes_isSome c (some ks) rfl
    rw [h] at this
    cases this

theorem expects_none_form (f : List Char) : ∀ (m : Mode), NUL ∉ f → expects m f = none →
    (m = Mode.head ∧ ∃ D L, f = D ++ L ∧ (∀ x ∈ D, is_digit x = true) ∧ (L = [] ∨ L = ['l'])) ∨
    (m = Mode.long ∧ f = []) ∨
    (∃ g D L, f = g ++ ('%' :: D ++ L) ∧ (expects m g).isSome = true ∧
      (∀ x ∈ D, is_digit x = true) ∧ (L = [] ∨ L = ['l'])) := by
  induction f with
  | nil =>
    intro m _ h
    cases m with
    | text => cases h
    | head => exact Or.inl ⟨rfl, [], [], rfl, by simp, Or.inl rfl⟩
    | long => exact Or.inr (Or.inl ⟨rfl, rfl⟩)
  | cons c s ih =>
    intro m hnul h
    have hc : c ≠ NUL := fun hc => hnul (hc ▸ List.mem_cons_self _ _)
    have hs : NUL ∉ s := fun hx => hnul (List.mem_cons_of_mem _ hx)
    have third : ∀ (m1 : Mode), expects m1 s = none →
        (∀ g, (expects m1 g).isSome = true → (expects m (c :: g)).isSome = true) →
        (m1 = Mode.head → ∀ D L, s = D ++ L → (∀ x ∈ D, is_digit x = true) →
          (L = [] ∨ L = ['l']) →
          (m = Mode.head ∧ ∃ D1 L1, c :: s = D1 ++ L1 ∧ (∀ x ∈ D1, is_digit x = true) ∧
              (L1 = [] ∨ L1 = ['l'])) ∨
            (∃ g D1 L1, c :: s = g ++ ('%' :: D1 ++ L1) ∧ (expects m g).isSome = true ∧
              (∀ x ∈ D1, is_digit x = true) ∧ (L1 = [] ∨ L1 = ['l']))) →
        (m1 = Mode.long → s = [] →
          (m = Mode.head ∧ ∃ D1 L1, c :: s = D1 ++ L1 ∧ (∀ x ∈ D1, is_digit x = true) ∧
              (L1 = [] ∨ L1 = ['l']))) →
        (m = Mode.head ∧ ∃ D L, c :: s = D ++ L ∧ (∀ x ∈ D, is_digit x = true) ∧
            (L = [] ∨ L = ['l'])) ∨
          (m = Mode.long ∧ c :: s = []) ∨
          (∃ g D L, c :: s = g ++ ('%' :: D ++ L) ∧ (expects m g).isSome = true ∧
            (∀ x ∈ D, is_digit x = true) ∧ (L = [] ∨ L = ['l'])) := by
      intro m1 h1 hg hhead hlong
      rcases ih m1 hs h1 with ⟨hm1, D, L, hf, hD, hL⟩ | ⟨hm1, hf⟩ | ⟨g, D, L, hf, hsome, hD, hL⟩
      · rcases hhead hm1 D L hf hD hL with h | h
        · exact Or.inl h
        · exact Or.inr (Or.inr h)
      · exact Or.inl (hlong hm1 hf)
      · exact Or.inr (Or.inr ⟨c :: g, D, L, by rw [hf]; rfl, hg g hsome, hD, hL⟩)
    cases m with
    | text =>
      rw [expects, if_neg hc] at h
      by_cases hp : c = '%'
      · rw [if_pos hp] at h
        refine third Mode.head h ?_ ?_ ?_
        · intro g hgs
          rw [expects, if_neg hc, if_pos hp]; exact hgs
        · intro _ D L hf hD hL
          exact Or.inr ⟨[], D, L, by rw [hf, hp]; rfl, rfl, hD, hL⟩
        · intro hm1; cases hm1
      · rw [if_neg hp] at h
        refine third Mode.text h ?_ ?_ ?_
        · intro g hgs
          rw [expects, if_neg hc, if_neg hp]; exact hgs
        · intro hm1; cases hm1
        · intro hm1; cases hm1
    | head =>
      rw [expects] at h
      by_cases hd : is_digit c = true
      · rw [if_pos hd] at h
        refine third Mode.head h ?_ ?_ ?_
        · intro g hgs
          rw [expects, if_pos hd]; exact hgs
        · intro _ D L hf hD hL
          refine Or.inl ⟨rfl, c :: D, L, by rw [hf]; rfl, ?_, hL⟩
          intro x hx
          rcases List.mem_cons.mp hx with hx | hx
          · rw [hx]; exact hd
          · exact hD x hx
        · intro hm1; cases hm1
      · rw [if_neg hd] at h
        by_cases hl : c = 'l'
        · rw [if_pos hl] at h
          refine third Mode.long h ?_ ?_ ?_
          · intro g hgs
            rw [expects, if_neg hd, if_pos hl]; exact hgs
          · intro hm1; cases hm1
          · intro _ hf
            exact ⟨rfl, [], ['l'], by rw [hf, hl]; rfl, by simp, Or.inr rfl⟩
        · rw [if_neg hl] at h
          refine third Mode.text (takes_none c _ h) ?_ ?_ ?_
          · intro g hgs
            rw [expects, if_neg hd, if_neg hl]; exact takes_isSome c _ hgs
          · intro hm1; cases hm1
          · intro hm1; cases hm1
    | long =>
      rw [expects] at h
      rcases third Mode.text (takes_none c _ h) (by
          intro g hgs
          rw [expects]; exact takes_isSome c _ hgs) (by intro hm1; cases hm1)
          (by intro hm1; cases hm1) with ⟨hm, _⟩ | ⟨_, hf⟩ | h3
      · cases hm
      · cases hf
      · exact Or.inr (Or.inr h3)

theorem dropWhile_digits_all (D : List Char) (hD : ∀ x ∈ D, is_digit x = true) :
    D.dropWhile is_digit = [] := by
  induction D with
  | nil => rfl
  | cons x D ih =>
    rw [List.dropWhile_cons_of_pos (hD x (List.mem_cons_self _ _))]
    exact ih (fun y hy => hD y (List.mem_cons_of_mem _ hy))

theorem directive_open (D L : List Char) (hD : ∀ x ∈ D, is_digit x = true)
    (hL : L = [] ∨ L = ['l']) : directive (D ++ L) = none := by
  rw [directive_eq]
  rcases hL with rfl | rfl
  · rw [List.append_nil, dropWhile_digits_all D hD]
  · rw [(takeWhile_digits D 'l' [] hD (by decide)).2]
    rfl

theorem expects_open (D L : List Char) (hD : ∀ x ∈ D, is_digit x = true)
    (hL : L = [] ∨ L = ['l']) : expects Mode.text ('%' :: D ++ L) = none := by
  rw [show ('%' :: D ++ L) = '%' :: (D ++ L) from rfl, expects, if_neg (by decide), if_pos rfl,
    expects_head_eq]
  rcases hL with rfl | rfl
  · rw [List.append_nil, dropWhile_digits_all D hD]
  · rw [(takeWhile_digits D 'l' [] hD (by decide)).2]
    rfl

theorem directive_at_nul (D L tail : List Char) (hD : ∀ x ∈ D, is_digit x = true)
    (hL : L = [] ∨ L = ['l']) :
    directive (D ++ L ++ NUL :: tail) = some (pad_of D, width_acc D 0, NUL, tail) := by
  rcases hL with rfl | rfl
  · rw [List.append_nil]
    exact directive_digits D NUL tail hD (by decide) (by decide)
  · rw [List.append_assoc]
    exact directive_digits_long D NUL tail hD

theorem conversion_nul (pad : Char) (w : Int) (st : State) :
    conversion NUL pad w st = some ((st.putc '%').putc NUL) := by
  unfold conversion
  rw [if_neg (by decide), if_neg (by decide), if_neg (by decide), if_neg (by decide),
    if_neg (by decide)]

/-! ## The claims -/

/-- C1: for every format and every argument list matching its directives,
`sprintf` returns; the value it returns is the number of characters it stored
before the closing NUL, and the character stored at that index, the last one
stored, is the NUL, which is not counted. -/
theorem sprintf_returns_count (format_buf : Nat → Char) (format : List Char) (ap : List Arg)
    (h : Matches format ap) :
    ∃ body : List Char, sprintf format_buf format ap = some (body ++ [NUL], body.length) ∧
      (body ++ [NUL])[body.length]? = some NUL ∧ (body ++ [NUL]).getLast? = some NUL := by
  obtain ⟨ks, hk, ht⟩ := h
  obtain ⟨st1, hrun, _⟩ := run_matches format.length ⟨format, [], 0, ap, format_buf⟩ ks
    (Nat.le_refl _) hk ht
  obtain ⟨body, hb1, hb2⟩ := loop_out _ _ _ hrun
  simp only [List.nil_append, Nat.zero_add] at hb1 hb2
  refine ⟨body, ?_, by simp, by simp⟩
  rw [sprintf_of_run _ _ _ _ hrun, hb1, hb2]

/-- Witness of C1 at the format `val=%05d end` with the argument -7. -/
theorem sprintf_returns_count_witness :
    Matches "val=%05d end".toList [Arg.int (-7)] ∧
      ∃ body : List Char,
        sprintf buf0 "val=%05d end".toList [Arg.int (-7)] = some (body ++ [NUL], body.length) ∧
        (body ++ [NUL])[body.length]? = some NUL ∧ (body ++ [NUL]).getLast? = some NUL :=
  ⟨⟨[Kind.int], by decide, by decide⟩,
    sprintf_returns_count buf0 "val=%05d end".toList [Arg.int (-7)]
      ⟨[Kind.int], by decide, by decide⟩⟩

/-- C7: the directive `%%` stores exactly one `%`, counts 1 and takes no
argument: the rest of the format is scanned with the argument list as it was
before the directive. -/
theorem percent_percent (rest str : List Char) (len : Nat) (ap : List Arg)
    (format_buf : Nat → Char) :
    run ⟨'%' :: '%' :: rest, str, len, ap, format_buf⟩ =
        run ⟨rest, str ++ ['%'], len + 1, ap, format_buf⟩ ∧
      sprintf format_buf ['%', '%'] ap = some (['%', NUL], 1) := by
  have hd : ∀ r : List Char, directive ('%' :: r) = some (' ', 0, '%', r) := by
    intro r
    have := directive_digits [] '%' r (by simp) (by decide) (by decide)
    simpa [pad_of, width_acc] using this
  have key : ∀ (r s : List Char) (l : Nat),
      run ⟨'%' :: '%' :: r, s, l, ap, format_buf⟩ = run ⟨r, s ++ ['%'], l + 1, ap, format_buf⟩ := by
    intro r s l
    rw [run_directive _ _ _ _ _ _ rfl (hd r)]
    rfl
  refine ⟨key rest str len, ?_⟩
  have h2 := key [] [] 0
  rw [run_nil ⟨[], [] ++ ['%'], 0 + 1, ap, format_buf⟩ rfl] at h2
  rw [sprintf_of_run _ _ _ _ h2]
  rfl

/-- C9: a format string without any `%` is stored unchanged, the value
returned is its number of characters, and no argument is taken. -/
theorem sprintf_plain_text (format_buf : Nat → Char) (format : List Char) (ap : List Arg)
    (hnul : NUL ∉ format) (hpct : '%' ∉ format) :
    sprintf format_buf format ap = some (format ++ [NUL], format.length) ∧
      run ⟨format, [], 0, ap, format_buf⟩ = some ⟨[], format, format.length, ap, format_buf⟩ := by
  have h := run_text format [] 0 ap format_buf hnul hpct
  simp only [List.nil_append, Nat.zero_add] at h
  exact ⟨by rw [sprintf_of_run _ _ _ _ h], h⟩

/-- Witness of C9 at the format `hello, world` with one unused argument. -/
theorem sprintf_plain_text_witness :
    NUL ∉ "hello, world".toList ∧ '%' ∉ "hello, world".toList ∧
      sprintf buf0 "hello, world".toList [Arg.int 5] =
        some ("hello, world".toList ++ [NUL], "hello, world".toList.length) ∧
      run ⟨"hello, world".toList, [], 0, [Arg.int 5], buf0⟩ =
        some ⟨[], "hello, world".toList, "hello, world".toList.length, [Arg.int 5], buf0⟩ :=
  ⟨by decide, by decide,
    sprintf_plain_text buf0 "hello, world".toList [Arg.int 5] (by decide) (by decide)⟩

/-- C8: for a character `c` that is not one of `d`, `u`, `x`, `X`, `s`, `%`,
`l` and not a decimal digit (a NUL stored in the format included), the directive made of `%`, any run of
digits `D` (the zero flag and the width), an optional `l`, and `c` stores
exactly `%` and `c`, counts 2 and takes no argument; the flag, the width and
the `l` are dropped, and nothing fails: alone it gives the two characters and
the count 2. -/
theorem unknown_directive (c : Char) (D : List Char) (long : Bool) (rest str : List Char)
    (len : Nat) (ap : List Arg) (format_buf : Nat → Char)
    (hconv : c ∉ ['d', 'u', 'x', 'X', 's', '%', 'l']) (hc : is_digit c = false)
    (hD : ∀ x ∈ D, is_digit x = true) :
    run ⟨'%' :: D ++ (if long then ['l'] else []) ++ c :: rest, str, len, ap, format_buf⟩ =
        run ⟨rest, str ++ ['%', c], len + 2, ap, format_buf⟩ ∧
      sprintf format_buf ('%' :: D ++ (if long then ['l'] else []) ++ [c]) ap =
        some (['%', c, NUL], 2) := by
  simp only [List.mem_cons, List.mem_singleton, List.not_mem_nil, or_false, not_or] at hconv
  obtain ⟨h1, h2, h3, h4, h5, h6, h7⟩ := hconv
  have hd : ∀ r : List Char, directive (D ++ (if long then ['l'] else []) ++ c :: r) =
      some (pad_of D, width_acc D 0, c, r) := by
    intro r
    cases long with
    | true => simpa using directive_digits_long D c r hD
    | false => simpa using directive_digits D c r hD hc h7
  have hconv1 : ∀ (pad : Char) (w : Int) (st : State),
      conversion c pad w st = some ((st.putc '%').putc c) := by
    intro pad w st
    unfold conversion
    rw [if_neg h1, if_neg h2, if_neg (by tauto), if_neg h5, if_neg h6]
  have key : ∀ (r s : List Char) (l : Nat),
      run ⟨'%' :: D ++ (if long then ['l'] else []) ++ c :: r, s, l, ap, format_buf⟩ =
        run ⟨r, s ++ ['%', c], l + 2, ap, format_buf⟩ := by
    intro r s l
    rw [run_directive _ (D ++ (if long then ['l'] else []) ++ c :: r) _ _ _ _
      (by simp) (hd r), hconv1]
    simp [State.putc, str_putc, Nat.add_assoc]
  refine ⟨key rest str len, ?_⟩
  have h2 := key [] [] 0
  rw [run_nil ⟨[], [] ++ ['%', c], 0 + 2, ap, format_buf⟩ rfl] at h2
  rw [sprintf_of_run _ _ _ _ h2]
  rfl

/-- Witness of C8 at `%05lq`, followed by `!`. -/
theorem unknown_directive_witness :
    'q' ∉ ['d', 'u', 'x', 'X', 's', '%', 'l'] ∧ is_digit 'q' = false ∧
      (∀ x ∈ ['0', '5'], is_digit x = true) ∧
      (run ⟨'%' :: ['0', '5'] ++ (if true then ['l'] else []) ++ 'q' :: ['!'], [], 0,
          [Arg.int 1], buf0⟩ =
        run ⟨['!'], [] ++ ['%', 'q'], 0 + 2, [Arg.int 1], buf0⟩ ∧
      sprintf buf0 ('%' :: ['0', '5'] ++ (if true then ['l'] else []) ++ ['q']) [Arg.int 1] =
        some (['%', 'q', NUL], 2)) :=
  ⟨by decide, by decide, by decide,
    unknown_directive 'q' ['0', '5'] true ['!'] [] 0 [Arg.int 1] buf0
      (by decide) (by decide) (by decide)⟩

/-- C6: for a string `t` without NUL, the `s` conversion after any run of
digits `D` (no flag and no width, a width, the zero flag and a width) stores
exactly the characters of `t` in order, without padding or truncation, adds
the length of `t` to the count and takes that one argument; alone it gives
`t` and its length, so `ab` through `%s` gives `ab`. -/
theorem string_conversion (t D rest str : List Char) (len : Nat) (ap : List Arg)
    (format_buf : Nat → Char) (ht : NUL ∉ t) (hD : ∀ x ∈ D, is_digit x = true) :
    run ⟨'%' :: D ++ 's' :: rest, str, len, Arg.str t :: ap, format_buf⟩ =
        run ⟨rest, str ++ t, len + t.length, ap, format_buf⟩ ∧
      sprintf format_buf ('%' :: D ++ ['s']) (Arg.str t :: ap) = some (t ++ [NUL], t.length) ∧
      sprintf format_buf ['%', 's'] [Arg.str ['a', 'b']] = some (['a', 'b', NUL], 2) := by
  have htake : t.takeWhile (fun c => decide (c ≠ NUL)) = t := by
    rw [List.takeWhile_eq_self_iff]
    intro c hc
    simpa using fun h : c = NUL => ht (h ▸ hc)
  have key : ∀ (D1 r s : List Char) (l : Nat) (t1 : List Char) (a : List Arg),
      (∀ x ∈ D1, is_digit x = true) → t1.takeWhile (fun c => decide (c ≠ NUL)) = t1 →
      run ⟨'%' :: D1 ++ 's' :: r, s, l, Arg.str t1 :: a, format_buf⟩ =
        run ⟨r, s ++ t1, l + t1.length, a, format_buf⟩ := by
    intro D1 r s l t1 a hD1 ht1
    rw [run_directive _ (D1 ++ 's' :: r) _ _ _ _ (by simp)
      (directive_digits D1 's' r hD1 (by decide) (by decide))]
    simp only [conversion, str_putchars_eq, ht1]
    simp
  refine ⟨key D rest str len t ap hD htake, ?_, ?_⟩
  · have h2 := (key D [] [] 0 t ap hD htake).trans (run_nil _ rfl)
    rw [sprintf_of_run _ _ _ _ h2]
    simp
  · have h2 := (key [] [] [] 0 ['a', 'b'] [] (by simp) (by decide)).trans (run_nil _ rfl)
    exact sprintf_of_run format_buf ['%', 's'] _ _ h2

/-- Witness of C6 at `%012s` with the string `ab`, followed by `.`. -/
theorem string_conversion_witness :
    NUL ∉ ['a', 'b'] ∧ (∀ x ∈ ['0', '1', '2'], is_digit x = true) ∧
      (run ⟨'%' :: ['0', '1', '2'] ++ 's' :: ['.'], [], 0, Arg.str ['a', 'b'] :: [], buf0⟩ =
        run ⟨['.'], [] ++ ['a', 'b'], 0 + ['a', 'b'].length, [], buf0⟩ ∧
      sprintf buf0 ('%' :: ['0', '1', '2'] ++ ['s']) (Arg.str ['a', 'b'] :: []) =
        some (['a', 'b'] ++ [NUL], ['a', 'b'].length) ∧
      sprintf buf0 ['%', 's'] [Arg.str ['a', 'b']] = some (['a', 'b', NUL], 2)) :=
  ⟨by decide, by decide,
    string_conversion ['a', 'b'] ['0', '1', '2'] ['.'] [] 0 [] buf0 (by decide) (by decide)⟩

/-- C2, as amended: for a non-negative `n` (below `2 ^ 31` for `d`, below
`2 ^ 32` for `u`, `x`, `X`) and a field width `w` below `2 ^ 31` written in
decimal without a leading zero (not written when 0), the output is
`max(0, w - k)` spaces followed by the `k` digits of `n`, has length
`max(w, k)`, which is at least `w`, and the digits read back as `n` in base
10 (`d`, `u`) or 16 (`x`, `X`). -/
theorem right_aligned_nonneg (format_buf : Nat → Char) (c : Char) (n w : Nat)
    (hc : c ∈ ['d', 'u', 'x', 'X']) (hn : n < conv_bound c) (hw : w < 2 ^ 31) :
    sprintf format_buf ('%' :: decimal w ++ [c]) [conv_arg c n] =
        some (List.replicate (w - (numeral (conv_base c) (c == 'X') n).length) ' ' ++
          numeral (conv_base c) (c == 'X') n ++ [NUL],
          max w (numeral (conv_base c) (c == 'X') n).length) ∧
      w ≤ max w (numeral (conv_base c) (c == 'X') n).length ∧
      parse_number (conv_base c) (numeral (conv_base c) (c == 'X') n) = some n := by
  have hw1 : w < 2147483648 := by simpa using hw
  simp only [List.mem_cons, List.mem_singleton, List.not_mem_nil, or_false] at hc
  refine ⟨?_, Nat.le_max_left _ _, ?_⟩
  · rcases hc with rfl | rfl | rfl | rfl
    · have hn1 : n < 2147483648 := by simpa [conv_bound] using hn
      exact sprintf_padded format_buf 'd' n w 10 false _ hw1 (by decide) (by decide)
        (by decide) (by decide) (conversion_d_nonneg n ' ' w _ [] hn1 rfl)
    · have hn1 : n < 4294967296 := by simpa [conv_bound] using hn
      exact sprintf_padded format_buf 'u' n w 10 false _ hw1 (by decide) (by decide)
        (by decide) (by decide) (conversion_u n ' ' w _ [] hn1 rfl)
    · have hn1 : n < 4294967296 := by simpa [conv_bound] using hn
      exact sprintf_padded format_buf 'x' n w 16 false _ hw1 (by decide) (by decide)
        (by decide) (by decide) (conversion_x 'x' n ' ' w _ [] (Or.inr rfl) hn1 rfl)
    · have hn1 : n < 4294967296 := by simpa [conv_bound] using hn
      exact sprintf_padded format_buf 'X' n w 16 true _ hw1 (by decide) (by decide)
        (by decide) (by decide) (conversion_x 'X' n ' ' w _ [] (Or.inl rfl) hn1 rfl)
  · rcases hc with rfl | rfl | rfl | rfl
    · exact parse_number_numeral 10 false n (by decide) (by decide)
    · exact parse_number_numeral 10 false n (by decide) (by decide)
    · exact parse_number_numeral 16 false n (by decide) (by decide)
    · exact parse_number_numeral 16 true n (by decide) (by decide)

/-- Witness of C2 (amended) at `%5x` with the value 255. -/
theorem right_aligned_nonneg_witness :
    'x' ∈ ['d', 'u', 'x', 'X'] ∧ 255 < conv_bound 'x' ∧ 5 < 2 ^ 31 ∧
      (sprintf buf0 ('%' :: decimal 5 ++ ['x']) [conv_arg 'x' 255] =
        some (List.replicate (5 - (numeral (conv_base 'x') ('x' == 'X') 255).length) ' ' ++
          numeral (conv_base 'x') ('x' == 'X') 255 ++ [NUL],
          max 5 (numeral (conv_base 'x') ('x' == 'X') 255).length) ∧
      5 ≤ max 5 (numeral (conv_base 'x') ('x' == 'X') 255).length ∧
      parse_number (conv_base 'x') (numeral (conv_base 'x') ('x' == 'X') 255) = some 255) :=
  ⟨by decide, by decide, by decide,
    right_aligned_nonneg buf0 'x' 255 5 (by decide) (by decide) (by decide)⟩

/-- Counterexample to C2 as stated: the width 4294967296, written in decimal
in `%4294967296d`, wraps to 0 in the 32-bit `pad_len`, so the value 0 gives
the single character `0`: the output is shorter than the width. -/
theorem right_aligned_nonneg_counterexample :
    decimal 4294967296 = "4294967296".toList ∧
      sprintf buf0 ('%' :: decimal 4294967296 ++ ['d']) [conv_arg 'd' 0] = some (['0', NUL], 1) ∧
      ¬ (4294967296 ≤ ['0'].length) := by
  decide

/-- C3, as amended: for a negative 32-bit `n` and a field width `w` below
`2 ^ 31` with zero padding (`%0<w>d`), the output is `-` followed by exactly
`max(w - 1, k)` characters, `max(0, w - 1 - k)` zeros and then the `k` decimal
digits of `|n|`; the count is `max(w, k + 1)`. So -3 at width 5 gives `-0003`,
and `val=%05d end` with -7 gives `val=-0007 end` and returns 13. -/
theorem zero_padded_negative (format_buf : Nat → Char) (n : Int) (w : Nat)
    (hlo : -2 ^ 31 ≤ n) (hneg : n < 0) (hw : w < 2 ^ 31) :
    sprintf format_buf ('%' :: '0' :: decimal w ++ ['d']) [Arg.int n] =
        some ('-' :: (List.replicate (w - 1 - (numeral 10 false n.natAbs).length) '0' ++
          numeral 10 false n.natAbs) ++ [NUL],
          max w ((numeral 10 false n.natAbs).length + 1)) ∧
      (List.replicate (w - 1 - (numeral 10 false n.natAbs).length) '0' ++
          numeral 10 false n.natAbs).length = max (w - 1) (numeral 10 false n.natAbs).length ∧
      parse_number 10 (numeral 10 false n.natAbs) = some n.natAbs ∧
      sprintf format_buf "%05d".toList [Arg.int (-3)] = some ("-0003".toList ++ [NUL], 5) ∧
      sprintf format_buf "val=%05d end".toList [Arg.int (-7)] =
        some ("val=-0007 end".toList ++ [NUL], 13) := by
  have hw1 : w < 2147483648 := by simpa using hw
  have hlo1 : -2147483648 ≤ n := by simpa using hlo
  refine ⟨sprintf_zero_neg format_buf n w hlo1 hneg hw1, ?_,
    parse_number_numeral 10 false _ (by decide) (by decide), ?_, ?_⟩
  · simp only [List.length_append, List.length_replicate]
    omega
  · rw [show "%05d".toList = '%' :: '0' :: decimal 5 ++ ['d'] from by decide,
      sprintf_zero_neg format_buf (-3) 5 (by decide) (by decide) (by decide)]
    decide
  · have key : ∀ (str : List Char) (len : Nat),
        run ⟨"%05d end".toList, str, len, [Arg.int (-7)], format_buf⟩ =
          some ⟨[], str ++ "-0007 end".toList, len + 9, [],
            store format_buf 0 (scratch 10 false 7)⟩ := by
      intro str len
      rw [run_directive _ "05d end".toList " end".toList '0' 5 'd' rfl (by decide),
        conversion_d_neg (-7) '0' 5 _ [] (by decide) (by decide) rfl]
      simp only
      rw [run_text " end".toList _ _ _ _ (by decide) (by decide)]
      have hr : rendered (Int.natAbs (-7)) 10 false true '0' 5 = "-0007".toList := by decide
      rw [hr]
      simp [Nat.add_assoc]
    apply sprintf_of_run format_buf "val=%05d end".toList [Arg.int (-7)]
      ⟨[], "val=-0007 end".toList, 13, [], store format_buf 0 (scratch 10 false 7)⟩
    rw [show "val=%05d end".toList = 'v' :: 'a' :: 'l' :: '=' :: "%05d end".toList from by decide,
      run_literal _ 'v' _ rfl (by decide) (by decide)]
    simp only [State.putc, str_putc]
    rw [run_literal _ 'a' _ rfl (by decide) (by decide)]
    simp only [State.putc, str_putc]
    rw [run_literal _ 'l' _ rfl (by decide) (by decide)]
    simp only [State.putc, str_putc]
    rw [run_literal _ '=' _ rfl (by decide) (by decide)]
    simp only [State.putc, str_putc]
    rw [key]
    rfl

/-- Witness of C3 (amended) at the value -42 and the width 12. -/
theorem zero_padded_negative_witness :
    -2 ^ 31 ≤ (-42 : Int) ∧ (-42 : Int) < 0 ∧ 12 < 2 ^ 31 ∧
      (sprintf buf0 ('%' :: '0' :: decimal 12 ++ ['d']) [Arg.int (-42)] =
        some ('-' :: (List.replicate (12 - 1 - (numeral 10 false (-42 : Int).natAbs).length) '0' ++
          numeral 10 false (-42 : Int).natAbs) ++ [NUL],
          max 12 ((numeral 10 false (-42 : Int).natAbs).length + 1)) ∧
      (List.replicate (12 - 1 - (numeral 10 false (-42 : Int).natAbs).length) '0' ++
          numeral 10 false (-42 : Int).natAbs).length =
        max (12 - 1) (numeral 10 false (-42 : Int).natAbs).length ∧
      parse_number 10 (numeral 10 false (-42 : Int).natAbs) = some (-42 : Int).natAbs ∧
      sprintf buf0 "%05d".toList [Arg.int (-3)] = some ("-0003".toList ++ [NUL], 5) ∧
      sprintf buf0 "val=%05d end".toList [Arg.int (-7)] =
        some ("val=-0007 end".toList ++ [NUL], 13)) :=
  ⟨by decide, by decide, by decide,
    zero_padded_negative buf0 (-42) 12 (by decide) (by decide) (by decide)⟩

/-- Counterexample to C3 as stated: -12345 at width 3 with zero padding gives
`-12345`, where the `-` is followed by 5 characters and not by `w - 1 = 2`:
the digits are never cut to the width. And the width 4294967296 wraps to 0 in
the 32-bit `pad_len`, so -3 through `%04294967296d` gives `-3`, where the `-`
is followed by 1 character and not by `w - 1 = 4294967295`. -/
theorem zero_padded_negative_counterexample :
    decimal 3 = ['3'] ∧
      sprintf buf0 ('%' :: '0' :: decimal 3 ++ ['d']) [Arg.int (-12345)] =
        some ('-' :: "12345".toList ++ [NUL], 6) ∧
      "12345".toList.length ≠ 3 - 1 ∧
      decimal 4294967296 = "4294967296".toList ∧
      sprintf buf0 ('%' :: '0' :: decimal 4294967296 ++ ['d']) [Arg.int (-3)] =
        some ('-' :: ['3'] ++ [NUL], 2) ∧
      ['3'].length ≠ 4294967296 - 1 := by
  decide

/-- C4, as amended: for a negative 32-bit `n` and a field width `w` below
`2 ^ 31` with space padding (`%<w>d`), the output is `max(0, w - 1 - k)`
spaces, then the `-`, then the `k` decimal digits of `|n|`: the sign stands
right before the digits, all padding before the sign, and the length is
`max(w, k + 1)`; -3 at width 5 gives three spaces and `-3`. -/
theorem space_padded_negative (format_buf : Nat → Char) (n : Int) (w : Nat)
    (hlo : -2 ^ 31 ≤ n) (hneg : n < 0) (hw : w < 2 ^ 31) :
    sprintf format_buf ('%' :: decimal w ++ ['d']) [Arg.int n] =
        some (List.replicate (w - 1 - (numeral 10 false n.natAbs).length) ' ' ++
          '-' :: numeral 10 false n.natAbs ++ [NUL],
          max w ((numeral 10 false n.natAbs).length + 1)) ∧
      parse_number 10 (numeral 10 false n.natAbs) = some n.natAbs ∧
      sprintf format_buf "%5d".toList [Arg.int (-3)] = some ("   -3".toList ++ [NUL], 5) := by
  have hw1 : w < 2147483648 := by simpa using hw
  have hlo1 : -2147483648 ≤ n := by simpa using hlo
  refine ⟨sprintf_space_neg format_buf n w hlo1 hneg hw1,
    parse_number_numeral 10 false _ (by decide) (by decide), ?_⟩
  rw [show "%5d".toList = '%' :: decimal 5 ++ ['d'] from by decide,
    sprintf_space_neg format_buf (-3) 5 (by decide) (by decide) (by decide)]
  decide

/-- Witness of C4 (amended) at the most negative value and the width 14. -/
theorem space_padded_negative_witness :
    -2 ^ 31 ≤ (-2147483648 : Int) ∧ (-2147483648 : Int) < 0 ∧ 14 < 2 ^ 31 ∧
      (sprintf buf0 ('%' :: decimal 14 ++ ['d']) [Arg.int (-2147483648)] =
        some (List.replicate (14 - 1 - (numeral 10 false (-2147483648 : Int).natAbs).length) ' ' ++
          '-' :: numeral 10 false (-2147483648 : Int).natAbs ++ [NUL],
          max 14 ((numeral 10 false (-2147483648 : Int).natAbs).length + 1)) ∧
      parse_number 10 (numeral 10 false (-2147483648 : Int).natAbs) =
        some (-2147483648 : Int).natAbs ∧
      sprintf buf0 "%5d".toList [Arg.int (-3)] = some ("   -3".toList ++ [NUL], 5)) :=
  ⟨by decide, by decide, by decide,
    space_padded_negative buf0 (-2147483648) 14 (by decide) (by decide) (by decide)⟩

/-- Counterexample to C4 as stated: the width 4294967296 wraps to 0 in the
32-bit `pad_len`, so -3 through `%4294967296d` gives `-3`, of length 2 and
not `max(w, k + 1) = 4294967296`, with no padding space at all. -/
theorem space_padded_negative_counterexample :
    decimal 4294967296 = "4294967296".toList ∧
      sprintf buf0 ('%' :: decimal 4294967296 ++ ['d']) [Arg.int (-3)] = some (['-', '3', NUL], 2) ∧
      (2 : Nat) ≠ max 4294967296 ((numeral 10 false (-3 : Int).natAbs).length + 1) := by
  decide

/-- C5: for every unsigned 32-bit `u`, `%x` stores the base-16 numeral
of `u` with the characters `0`-`9` and `a`-`f` only, `%X` stores it with
`0`-`9` and `A`-`F` only, both read back as `u`, and the `%X` output is the
`%x` output with every letter upper-cased; 0xFF gives `ff` and `FF`. -/
theorem hex_conversions (format_buf : Nat → Char) (u : Nat) (hu : u < 2 ^ 32) :
    sprintf format_buf "%x".toList [Arg.uint u] =
        some (numeral 16 false u ++ [NUL], (numeral 16 false u).length) ∧
      (∀ ch ∈ numeral 16 false u, ch ∈ "0123456789abcdef".toList) ∧
      parse_number 16 (numeral 16 false u) = some u ∧
      sprintf format_buf "%X".toList [Arg.uint u] =
        some (numeral 16 true u ++ [NUL], (numeral 16 true u).length) ∧
      (∀ ch ∈ numeral 16 true u, ch ∈ "0123456789ABCDEF".toList) ∧
      parse_number 16 (numeral 16 true u) = some u ∧
      numeral 16 true u = (numeral 16 false u).map Char.toUpper ∧
      sprintf format_buf "%x".toList [Arg.uint 255] = some ("ff".toList ++ [NUL], 2) ∧
      sprintf format_buf "%X".toList [Arg.uint 255] = some ("FF".toList ++ [NUL], 2) := by
  have hu1 : u < 4294967296 := by simpa using hu
  have hx : "%x".toList = ['%', 'x'] := by decide
  have hX : "%X".toList = ['%', 'X'] := by decide
  rw [hx, hX]
  refine ⟨sprintf_bare format_buf 'x' u (Or.inr rfl) hu1, ?_,
    parse_number_numeral 16 false u (by decide) (by decide),
    sprintf_bare format_buf 'X' u (Or.inl rfl) hu1, ?_,
    parse_number_numeral 16 true u (by decide) (by decide), ?_, ?_, ?_⟩
  · intro ch hch
    simp only [numeral, List.mem_reverse, List.mem_map] at hch
    obtain ⟨d, hd, rfl⟩ := hch
    exact digit_char_lower_mem d (digits_of_lt 16 u d (by decide) hd)
  · intro ch hch
    simp only [numeral, List.mem_reverse, List.mem_map] at hch
    obtain ⟨d, hd, rfl⟩ := hch
    exact digit_char_upper_mem d (digits_of_lt 16 u d (by decide) hd)
  · unfold numeral
    rw [List.map_reverse, List.map_map]
    congr 1
    apply List.map_congr_left
    intro d hd
    exact digit_char_toUpper d (digits_of_lt 16 u d (by decide) hd)
  · rw [sprintf_bare format_buf 'x' 255 (Or.inr rfl) (by decide)]
    decide
  · rw [sprintf_bare format_buf 'X' 255 (Or.inl rfl) (by decide)]
    decide

/-- Witness of C5 at the value 48879, `beef` in base 16. -/
theorem hex_conversions_witness :
    48879 < 2 ^ 32 ∧
      (sprintf buf0 "%x".toList [Arg.uint 48879] =
        some (numeral 16 false 48879 ++ [NUL], (numeral 16 false 48879).length) ∧
      (∀ ch ∈ numeral 16 false 48879, ch ∈ "0123456789abcdef".toList) ∧
      parse_number 16 (numeral 16 false 48879) = some 48879 ∧
      sprintf buf0 "%X".toList [Arg.uint 48879] =
        some (numeral 16 true 48879 ++ [NUL], (numeral 16 true 48879).length) ∧
      (∀ ch ∈ numeral 16 true 48879, ch ∈ "0123456789ABCDEF".toList) ∧
      parse_number 16 (numeral 16 true 48879) = some 48879 ∧
      numeral 16 true 48879 = (numeral 16 false 48879).map Char.toUpper ∧
      sprintf buf0 "%x".toList [Arg.uint 255] = some ("ff".toList ++ [NUL], 2) ∧
      sprintf buf0 "%X".toList [Arg.uint 255] = some ("FF".toList ++ [NUL], 2)) :=
  ⟨by decide, hex_conversions buf0 48879 (by decide)⟩

/-- C10: with an argument list matching the format, the arguments are taken
strictly left to right. The scan ends with as many arguments taken as there
are directives taking one (`d`, `u`, `x`, `X`, `s`), of the kinds those
directives ask for. And at every directive that follows a part `f1` of the
format holding `k` directives taking an argument, the scan of `f1` has taken
exactly the first `k` arguments; a `d`, `u`, `x`, `X` or `s` conversion there
is run on the argument of index `k`, takes it and nothing else, and any other
conversion character (`%`, an unknown one) leaves the argument list as it is. -/
theorem arguments_in_order (format_buf : Nat → Char) (format : List Char) (ap : List Arg)
    (hm : Matches format ap) :
    (∃ st ks, expects Mode.text format = some ks ∧ (ap.take ks.length).map Arg.kind = ks ∧
        run ⟨format, [], 0, ap, format_buf⟩ = some st ∧ st.ap = ap.drop ks.length) ∧
      (∀ (f1 D : List Char) (long : Bool) (c : Char) (f2 : List Char) (ks1 : List Kind),
        format = f1 ++ ('%' :: D ++ (if long then ['l'] else []) ++ c :: f2) → NUL ∉ f1 →
        expects Mode.text f1 = some ks1 → (∀ x ∈ D, is_digit x = true) →
        (long = false → is_digit c = false ∧ c ≠ 'l') →
        ∃ st1 st2, run ⟨f1, [], 0, ap, format_buf⟩ = some st1 ∧ st1.ap = ap.drop ks1.length ∧
          conversion c (pad_of D) (width_acc D 0) { st1 with s := f2 } = some st2 ∧
          run ⟨format, [], 0, ap, format_buf⟩ = run st2 ∧
          (c ∈ ['d', 'u', 'x', 'X', 's'] →
            ∃ a, ap[ks1.length]? = some a ∧ ap.drop ks1.length = a :: ap.drop (ks1.length + 1) ∧
              kind_of c = some a.kind ∧ st2.ap = ap.drop (ks1.length + 1)) ∧
          (c ∉ ['d', 'u', 'x', 'X', 's'] → st2.ap = ap.drop ks1.length)) := by
  obtain ⟨ks, hk, ht⟩ := hm
  constructor
  · obtain ⟨st, hrun, hap⟩ := run_matches format.length ⟨format, [], 0, ap, format_buf⟩ ks
      (Nat.le_refl _) hk ht
    exact ⟨st, ks, hk, by rw [List.map_take]; exact ht, hrun, hap⟩
  · intro f1 D long c f2 ks1 hfmt hnul h1 hD hc
    subst hfmt
    rw [expects_append f1 _ Mode.text ks1 hnul h1, expects_directive D long c f2 hD hc] at hk
    cases htk : takes c (expects Mode.text f2) with
    | none => rw [htk] at hk; cases hk
    | some K2 =>
      rw [htk] at hk
      simp only [Option.map_some', Option.some.injEq] at hk
      subst hk
      obtain ⟨ht1, ht2⟩ := take_append_split ks1 K2 _ ht
      rw [← List.map_drop] at ht2
      obtain ⟨st1, hrun1, hap1⟩ := run_matches f1.length ⟨f1, [], 0, ap, format_buf⟩ ks1
        (Nat.le_refl _) h1 ht1
      simp only at hap1
      have hrun := run_at_directive format_buf f1 D long c f2 ap st1 hnul hrun1 hD hc
      obtain ⟨K3, _, hK2⟩ := takes_some _ _ _ htk
      cases hkind : kind_of c with
      | none =>
        obtain ⟨st2, hconv, hap2⟩ := conversion_plain c (pad_of D) (width_acc D 0)
          { st1 with s := f2 } hkind
        rw [hconv] at hrun
        refine ⟨st1, st2, hrun1, hap1, hconv, hrun, ?_, ?_⟩
        · intro hmem
          exact absurd hmem ((kind_of_none_iff c).mp hkind)
        · intro _
          rw [hap2]; exact hap1
      | some k =>
        rw [hkind] at hK2
        simp only [List.singleton_append] at hK2
        subst hK2
        obtain ⟨a, ap1, hdrop, hak, _⟩ := take_kinds_cons _ _ _ ht2
        obtain ⟨st2, hconv, hap2⟩ := conversion_takes c (pad_of D) (width_acc D 0)
          { st1 with s := f2 } a ap1 (by simp only; rw [hap1, hdrop]) (by rw [hkind, hak])
        rw [hconv] at hrun
        have hd1 : ap.drop (ks1.length + 1) = ap1 := drop_succ_of_cons ap _ a ap1 hdrop
        refine ⟨st1, st2, hrun1, hap1, hconv, hrun, ?_, ?_⟩
        · intro _
          refine ⟨a, ?_, by rw [hd1]; exact hdrop, by rw [hak], by rw [hap2, hd1]⟩
          have := congrArg List.head? hdrop
          simpa [List.head?_drop] using this
        · intro hmem
          have := (kind_of_none_iff c).mpr hmem
          rw [hkind] at this
          cases this

/-- Witness of C10 at the format `n=%d%% s=%s` with an `int` and a string. -/
theorem arguments_in_order_witness :
    Matches "n=%d%% s=%s".toList [Arg.int 5, Arg.str "ok".toList] ∧
      ((∃ st ks, expects Mode.text "n=%d%% s=%s".toList = some ks ∧
          (([Arg.int 5, Arg.str "ok".toList] : List Arg).take ks.length).map Arg.kind = ks ∧
          run ⟨"n=%d%% s=%s".toList, [], 0, [Arg.int 5, Arg.str "ok".toList], buf0⟩ = some st ∧
          st.ap = ([Arg.int 5, Arg.str "ok".toList] : List Arg).drop ks.length) ∧
      (∀ (f1 D : List Char) (long : Bool) (c : Char) (f2 : List Char) (ks1 : List Kind),
        "n=%d%% s=%s".toList = f1 ++ ('%' :: D ++ (if long then ['l'] else []) ++ c :: f2) →
        NUL ∉ f1 →
        expects Mode.text f1 = some ks1 → (∀ x ∈ D, is_digit x = true) →
        (long = false → is_digit c = false ∧ c ≠ 'l') →
        ∃ st1 st2, run ⟨f1, [], 0, [Arg.int 5, Arg.str "ok".toList], buf0⟩ = some st1 ∧
          st1.ap = ([Arg.int 5, Arg.str "ok".toList] : List Arg).drop ks1.length ∧
          conversion c (pad_of D) (width_acc D 0) { st1 with s := f2 } = some st2 ∧
          run ⟨"n=%d%% s=%s".toList, [], 0, [Arg.int 5, Arg.str "ok".toList], buf0⟩ = run st2 ∧
          (c ∈ ['d', 'u', 'x', 'X', 's'] →
            ∃ a, ([Arg.int 5, Arg.str "ok".toList] : List Arg)[ks1.length]? = some a ∧
              ([Arg.int 5, Arg.str "ok".toList] : List Arg).drop ks1.length =
                a :: ([Arg.int 5, Arg.str "ok".toList] : List Arg).drop (ks1.length + 1) ∧
              kind_of c = some a.kind ∧
              st2.ap = ([Arg.int 5, Arg.str "ok".toList] : List Arg).drop (ks1.length + 1)) ∧
          (c ∉ ['d', 'u', 'x', 'X', 's'] →
            st2.ap = ([Arg.int 5, Arg.str "ok".toList] : List Arg).drop ks1.length))) :=
  ⟨⟨[Kind.int, Kind.str], by decide, by decide⟩,
    arguments_in_order buf0 "n=%d%% s=%s".toList [Arg.int 5, Arg.str "ok".toList]
      ⟨[Kind.int, Kind.str], by decide, by decide⟩⟩

/-- C11: the length modifier `l` has no effect: for every run of digits `D`
after the `%` (the zero flag and the width, both optional) and every
conversion character `c` among `d`, `u`, `x`, `X`, `s`, `%`, the scan of `%`
`D` `l` `c` from any state is the scan of `%` `D` `c` from that state, so the
output, the count and the arguments taken are the same; so are the results of
`sprintf` on the two directives alone. -/
theorem long_modifier_ignored (D : List Char) (c : Char) (rest str : List Char) (len : Nat)
    (ap : List Arg) (format_buf : Nat → Char) (hD : ∀ x ∈ D, is_digit x = true)
    (hc : c ∈ ['d', 'u', 'x', 'X', 's', '%']) :
    run ⟨'%' :: D ++ 'l' :: c :: rest, str, len, ap, format_buf⟩ =
        run ⟨'%' :: D ++ c :: rest, str, len, ap, format_buf⟩ ∧
      sprintf format_buf ('%' :: D ++ ['l', c]) ap = sprintf format_buf ('%' :: D ++ [c]) ap := by
  have hcd : is_digit c = false ∧ c ≠ 'l' := by
    simp only [List.mem_cons, List.mem_singleton, List.not_mem_nil, or_false] at hc
    rcases hc with rfl | rfl | rfl | rfl | rfl | rfl <;> exact ⟨by decide, by decide⟩
  have key : ∀ (r s : List Char) (l : Nat),
      run ⟨'%' :: D ++ 'l' :: c :: r, s, l, ap, format_buf⟩ =
        run ⟨'%' :: D ++ c :: r, s, l, ap, format_buf⟩ := by
    intro r s l
    rw [run_directive _ (D ++ 'l' :: c :: r) r _ _ c (by simp) (directive_digits_long D c r hD),
      run_directive _ (D ++ c :: r) r _ _ c (by simp) (directive_digits D c r hD hcd.1 hcd.2)]
  refine ⟨key rest str len, ?_⟩
  unfold sprintf
  rw [key [] [] 0]

/-- Witness of C11 at `%08lx` against `%08x`, followed by `;`. -/
theorem long_modifier_ignored_witness :
    (∀ x ∈ ['0', '8'], is_digit x = true) ∧ 'x' ∈ ['d', 'u', 'x', 'X', 's', '%'] ∧
      (run ⟨'%' :: ['0', '8'] ++ 'l' :: 'x' :: [';'], [], 0, [Arg.uint 48879], buf0⟩ =
        run ⟨'%' :: ['0', '8'] ++ 'x' :: [';'], [], 0, [Arg.uint 48879], buf0⟩ ∧
      sprintf buf0 ('%' :: ['0', '8'] ++ ['l', 'x']) [Arg.uint 48879] =
        sprintf buf0 ('%' :: ['0', '8'] ++ ['x']) [Arg.uint 48879]) :=
  ⟨by decide, by decide,
    long_modifier_ignored ['0', '8'] 'x' [';'] [] 0 [Arg.uint 48879] buf0 (by decide) (by decide)⟩

/-- C12, as amended: for every 32-bit magnitude `n`, base 10 or 16, case
flag, sign flag, pad character and 32-bit `min_width`, other than `-2 ^ 31`
when the sign flag is set, `str_putint` stores exactly: a `-` if sign and the
pad is `'0'`; then `max(0, e - k)` pad characters, `k` the number of digits of
`n` and `e = min_width - 1` if sign, else `min_width`; then a `-` if sign and
the pad is not `'0'`; then the `k` digits most significant first. Its count
is `max(min_width, k + 1)` if sign and `max(min_width, k)` otherwise, and 42
through `%05d` gives `00042`. -/
theorem str_putint_layout (format_buf : Nat → Char) (str : List Char) (n base : Nat)
    (upcase sign : Bool) (pad : Char) (min_width : Int)
    (hn : n < 2 ^ 32) (hbase : base = 10 ∨ base = 16)
    (hlo : -2 ^ 31 ≤ min_width) (hhi : min_width < 2 ^ 31)
    (hmin : sign = true → min_width ≠ -2 ^ 31) :
    (∃ b, str_putint format_buf str n base upcase sign pad min_width =
        some (b, str ++ spec_putint n base upcase sign pad min_width,
          (spec_putint n base upcase sign pad min_width).length)) ∧
      (((spec_putint n base upcase sign pad min_width).length : Nat) : Int) =
        max min_width (((numeral base upcase n).length : Int) + (if sign = true then 1 else 0)) ∧
      parse_number base (numeral base upcase n) = some n ∧
      sprintf format_buf "%05d".toList [Arg.int 42] = some ("00042".toList ++ [NUL], 5) := by
  have hb : 2 ≤ base ∧ base ≤ 36 := by rcases hbase with h | h <;> (rw [h]; decide)
  have hn32 : n < base ^ 32 := by
    rcases hbase with h | h <;> (rw [h]; exact lt_of_lt_of_le hn (by norm_num))
  have hw : sign = true → wrapInt32 (min_width - 1) = min_width - 1 := by
    intro hs
    have := hmin hs
    unfold wrapInt32
    norm_num at hlo hhi this
    omega
  refine ⟨⟨store format_buf 0 (scratch base upcase n), ?_⟩,
    spec_putint_length n base upcase sign pad min_width,
    parse_number_numeral base upcase n hb.1 hb.2, ?_⟩
  · rw [str_putint_eq _ _ _ _ _ _ _ _ hb.1 hn32,
      rendered_eq_spec n base upcase sign pad min_width (by omega) (by omega) hw]
  · have h := sprintf_single format_buf "05d".toList '0' 5 'd' [Arg.int 42] _ (by decide)
      (conversion_d_nonneg 42 '0' 5 _ [] (by decide) rfl)
    rw [show "%05d".toList = '%' :: "05d".toList from by decide, h]
    have hr : rendered 42 10 false false '0' 5 = "00042".toList := by decide
    simp only [hr]
    rfl

/-- Witness of C12 (amended) at the magnitude 255 in base 16, upper case,
with the sign and zero padding to the width 6. -/
theorem str_putint_layout_witness :
    255 < 2 ^ 32 ∧ ((16 : Nat) = 10 ∨ (16 : Nat) = 16) ∧ -2 ^ 31 ≤ (6 : Int) ∧ (6 : Int) < 2 ^ 31 ∧
      (true = true → (6 : Int) ≠ -2 ^ 31) ∧
      ((∃ b, str_putint buf0 ['='] 255 16 true true '0' 6 =
        some (b, ['='] ++ spec_putint 255 16 true true '0' 6,
          (spec_putint 255 16 true true '0' 6).length)) ∧
      (((spec_putint 255 16 true true '0' 6).length : Nat) : Int) =
        max 6 (((numeral 16 true 255).length : Int) + (if true = true then 1 else 0)) ∧
      parse_number 16 (numeral 16 true 255) = some 255 ∧
      sprintf buf0 "%05d".toList [Arg.int 42] = some ("00042".toList ++ [NUL], 5)) :=
  ⟨by decide, by decide, by decide, by decide, by decide,
    str_putint_layout buf0 ['='] 255 16 true true '0' 6 (by decide) (by decide) (by decide)
      (by decide) (by decide)⟩

/-- Counterexample to C12 as stated: with the sign flag and `min_width` equal
to `-2 ^ 31`, the statement `pad_len--` wraps to `2 ^ 31 - 1`, so the
magnitude 3 is stored after 2147483646 spaces, where the claim gives
`max(0, e - k) = 0` pad characters, that is the output `-3`. -/
theorem str_putint_layout_counterexample :
    (str_putint buf0 [] 3 10 false true ' ' (-2147483648)).map (fun r => r.2.1) =
        some (List.replicate 2147483646 ' ' ++ ['-', '3']) ∧
      spec_putint 3 10 false true ' ' (-2147483648) = ['-', '3'] ∧
      List.replicate 2147483646 ' ' ++ ['-', '3'] ≠ ['-', '3'] := by
  have hs : scratch 10 false 3 = ['3'] := by decide
  have hw : wrapInt32 (-2147483648 - 1) = 2147483647 := by decide
  have c1 : (true && ' ' == '0') = false := by decide
  have c2 : (true && ' ' != '0') = true := by decide
  have h1 : ((2147483647 : Int) - (([('3' : Char)].length : Nat) : Int)).toNat = 2147483646 := by
    decide
  have hr : rendered 3 10 false true ' ' (-2147483648) =
      List.replicate 2147483646 ' ' ++ ['-', '3'] := by
    unfold rendered
    rw [hs, hw, if_pos (rfl : true = true), h1, c1, c2]
    simp only [Bool.false_eq_true, if_false, if_true, List.nil_append, List.append_assoc,
      List.reverse_cons, List.reverse_nil, List.singleton_append]
  refine ⟨?_, by decide, ?_⟩
  · rw [str_putint_eq _ _ _ _ _ _ _ _ (by decide) (by decide), hr]
    rfl
  · intro h
    have hl := congrArg List.length h
    rw [List.length_append, List.length_replicate] at hl
    exact absurd hl (by decide)

/-- C13: for every magnitude `n` below `2 ^ 32` and every base `b` from 2 to
36, the digits `str_putint` stores (with `min_width` 0 and no sign) are the
canonical numeral of `n` in base `b`, most significant digit first: every
character is the digit character of a value below `b` (`0` to `9` for the
values up to 9, the letters from `a` or `A`, by the case flag, for 10 and
above), the first digit is not `0` unless `n` is 0, which gives the single
digit `0`, and the place value of the sequence in base `b` is `n`. -/
theorem canonical_digits (format_buf : Nat → Char) (str : List Char) (n base : Nat)
    (upcase : Bool) (pad : Char) (hn : n < 2 ^ 32) (hb : 2 ≤ base) (hb1 : base ≤ 36) :
    (∃ b, str_putint format_buf str n base upcase false pad 0 =
        some (b, str ++ numeral base upcase n, (numeral base upcase n).length)) ∧
      (∀ ch ∈ numeral base upcase n, ∃ d, d < base ∧ ch = digit_char upcase d ∧
        ch = (if d ≤ 9 then Char.ofNat ('0'.toNat + d)
          else Char.ofNat ((if upcase = true then 'A'.toNat else 'a'.toNat) + (d - 10)))) ∧
      (n ≠ 0 → (numeral base upcase n).head? ≠ some '0') ∧
      (n = 0 → numeral base upcase n = ['0']) ∧
      parse_number base (numeral base upcase n) = some n := by
  have hn32 : n < base ^ 32 :=
    lt_of_lt_of_le hn (Nat.pow_le_pow_left hb 32)
  refine ⟨⟨store format_buf 0 (scratch base upcase n), ?_⟩, ?_, ?_, ?_,
    parse_number_numeral base upcase n hb hb1⟩
  · rw [str_putint_eq _ _ _ _ _ _ _ _ hb hn32]
    have := rendered_unsigned n base upcase pad 0 (by omega) (by omega)
    simp only [Nat.cast_zero, Nat.zero_sub, List.replicate_zero, List.nil_append] at this
    rw [this]
  · intro ch hch
    simp only [numeral, List.mem_reverse, List.mem_map] at hch
    obtain ⟨d, hd, rfl⟩ := hch
    exact ⟨d, digits_of_lt base n d (by omega) hd, rfl, digit_char_letters upcase d⟩
  · intro h0
    obtain ⟨d, hd0, hd, hh⟩ := numeral_head base upcase n hb h0
    rw [hh]
    intro h
    exact digit_char_ne_zero upcase d hd0 (by omega) (Option.some.inj h)
  · intro h0
    rw [h0, numeral_zero]

/-- Witness of C13 at the magnitude 48879 in base 36, upper case. -/
theorem canonical_digits_witness :
    48879 < 2 ^ 32 ∧ 2 ≤ 36 ∧ 36 ≤ 36 ∧
      ((∃ b, str_putint buf0 [] 48879 36 true false ' ' 0 =
        some (b, [] ++ numeral 36 true 48879, (numeral 36 true 48879).length)) ∧
      (∀ ch ∈ numeral 36 true 48879, ∃ d, d < 36 ∧ ch = digit_char true d ∧
        ch = (if d ≤ 9 then Char.ofNat ('0'.toNat + d)
          else Char.ofNat ((if true = true then 'A'.toNat else 'a'.toNat) + (d - 10)))) ∧
      (48879 ≠ 0 → (numeral 36 true 48879).head? ≠ some '0') ∧
      (48879 = 0 → numeral 36 true 48879 = ['0']) ∧
      parse_number 36 (numeral 36 true 48879) = some 48879) :=
  ⟨by decide, by decide, by decide,
    canonical_digits buf0 [] 48879 36 true ' ' (by decide) (by decide) (by decide)⟩

/-- C14: for every magnitude `n` below `2 ^ 32` and every base `b` of at least
2, the digit loop of `str_putint` ends, after at least one and at most 32
digits (at most 10 in base 10, at most 8 in base 16); it stores at the indices
below that number only, all inside the 32 characters of the scratch buffer. -/
theorem digit_loop_in_bounds (format_buf : Nat → Char) (n base : Nat) (upcase : Bool)
    (hn : n < 2 ^ 32) (hb : 2 ≤ base) :
    ∃ s i, digit_loop FORMAT_BUF_SIZE format_buf 0 n base upcase = some (s, i) ∧
      0 < i ∧ i ≤ FORMAT_BUF_SIZE ∧ FORMAT_BUF_SIZE = 32 ∧
      (base = 10 → i ≤ 10) ∧ (base = 16 → i ≤ 8) ∧
      (∀ j, i ≤ j → s j = format_buf j) := by
  have hlen : ∀ k, 0 < k → n < base ^ k → (scratch base upcase n).length ≤ k := by
    intro k hk h
    simp only [scratch, List.length_map]
    exact digits_of_length_le base n k hb hk h
  have h32 : (scratch base upcase n).length ≤ 32 :=
    hlen 32 (by decide) (lt_of_lt_of_le hn (Nat.pow_le_pow_left hb 32))
  refine ⟨store format_buf 0 (scratch base upcase n), 0 + (scratch base upcase n).length,
    digit_loop_eq base upcase hb _ _ _ _ h32, ?_, ?_, rfl, ?_, ?_, ?_⟩
  · have := digits_of_length_pos base n
    simp only [scratch, List.length_map]
    omega
  · simpa [FORMAT_BUF_SIZE] using h32
  · intro h10
    subst h10
    have := hlen 10 (by decide) (lt_of_lt_of_le hn (by norm_num))
    omega
  · intro h16
    subst h16
    have := hlen 8 (by decide) (lt_of_lt_of_le hn (by norm_num))
    omega
  · intro j hj
    exact store_above _ _ _ _ hj

/-- Witness of C14 at the largest magnitude in base 2, which takes all 32 characters. -/
theorem digit_loop_in_bounds_witness :
    4294967295 < 2 ^ 32 ∧ 2 ≤ 2 ∧
      ∃ s i, digit_loop FORMAT_BUF_SIZE buf0 0 4294967295 2 false = some (s, i) ∧
        0 < i ∧ i ≤ FORMAT_BUF_SIZE ∧ FORMAT_BUF_SIZE = 32 ∧
        ((2 : Nat) = 10 → i ≤ 10) ∧ ((2 : Nat) = 16 → i ≤ 8) ∧
        (∀ j, i ≤ j → s j = buf0 j) :=
  ⟨by decide, by decide, digit_loop_in_bounds buf0 4294967295 2 false (by decide) (by decide)⟩

/-- C15, as amended: the magnitude zero is stored as the single digit `0`,
never as no digit: `%d`, `%u`, `%x` and `%X` of 0 each give `0` and the count
1, and with a field width `w` from 1 and below `2 ^ 31`, with or without the
zero flag, they give `w - 1` pad characters followed by `0`. -/
theorem zero_renders (format_buf : Nat → Char) (c : Char) (zero : Bool) (w : Nat)
    (hc : c ∈ ['d', 'u', 'x', 'X']) (hw : w < 2 ^ 31) :
    sprintf format_buf ('%' :: ((if zero = true then ['0'] else []) ++ decimal w) ++ [c])
        [conv_arg c 0] =
        some (List.replicate (w - 1) (if zero = true then '0' else ' ') ++ ['0'] ++ [NUL],
          max w 1) ∧
      sprintf format_buf ['%', c] [conv_arg c 0] = some (['0', NUL], 1) ∧
      numeral (conv_base c) (c == 'X') 0 = ['0'] := by
  have hw1 : w < 2147483648 := by simpa using hw
  obtain ⟨h1, h2, h3, h4, h5⟩ := conv_char_facts c hc
  have key : ∀ (z : Bool) (v : Nat), v < 2147483648 →
      sprintf format_buf ('%' :: ((if z = true then ['0'] else []) ++ decimal v) ++ [c])
        [conv_arg c 0] =
      some (List.replicate (v - 1) (if z = true then '0' else ' ') ++ ['0'] ++ [NUL],
        max v 1) := by
    intro z v hv
    have h := sprintf_header format_buf ((if z = true then ['0'] else []) ++ decimal v)
      (if z = true then '0' else ' ') c 0 v (conv_base c) (c == 'X') (conv_arg c 0)
      (directive_flag_decimal z v c hv h1 h2) h3 h4 (conversion_nonneg format_buf c _ 0 v hc h5)
    rw [numeral_zero] at h
    exact h
  refine ⟨key zero w hw1, ?_, numeral_zero _ _⟩
  have := key false 0 (by decide)
  simpa [decimal] using this

/-- Witness of C15 (amended) at `%04u`. -/
theorem zero_renders_witness :
    'u' ∈ ['d', 'u', 'x', 'X'] ∧ 4 < 2 ^ 31 ∧
      (sprintf buf0 ('%' :: ((if true = true then ['0'] else []) ++ decimal 4) ++ ['u'])
        [conv_arg 'u' 0] =
        some (List.replicate (4 - 1) (if true = true then '0' else ' ') ++ ['0'] ++ [NUL],
          max 4 1) ∧
      sprintf buf0 ['%', 'u'] [conv_arg 'u' 0] = some (['0', NUL], 1) ∧
      numeral (conv_base 'u') ('u' == 'X') 0 = ['0']) :=
  ⟨by decide, by decide, zero_renders buf0 'u' true 4 (by decide) (by decide)⟩

/-- Counterexample to C15 as stated: the width 4294967297, written in decimal
in `%4294967297d`, wraps to 1 in the 32-bit `pad_len`, so 0 gives the single
character `0` and not `w - 1 = 4294967296` pad characters followed by `0`. -/
theorem zero_renders_counterexample :
    decimal 4294967297 = "4294967297".toList ∧
      sprintf buf0 ('%' :: decimal 4294967297 ++ ['d']) [conv_arg 'd' 0] = some (['0', NUL], 1) ∧
      (['0'] : List Char).length ≠ (4294967297 - 1) + 1 := by
  decide

/-- C16: for a directive made of `%`, a run of decimal digits `D` (empty or
not) and then a character that is not a digit, the pad character parsed is
`'0'` exactly when the first character of `D` is `'0'`, and a space
otherwise, and the field width parsed is the decimal place value of `D` (0
for the empty run, leading zeros adding nothing) when that value is below
`2 ^ 31`; a following `l` is skipped. `%012d` gives pad `'0'` and width 12,
`%10d` gives pad space and width 10. -/
theorem directive_flag_and_width (D : List Char) (c : Char) (rest : List Char)
    (hD : ∀ x ∈ D, is_digit x = true) (hc : is_digit c = false)
    (hv : decimal_value D < 2 ^ 31) :
    (c ≠ 'l' → directive (D ++ c :: rest) =
        some (pad_of D, (decimal_value D : Int), c, rest)) ∧
      (∀ c1, directive (D ++ 'l' :: c1 :: rest) =
        some (pad_of D, (decimal_value D : Int), c1, rest)) ∧
      (pad_of D = '0' ↔ D.head? = some '0') ∧ (pad_of D ≠ '0' → pad_of D = ' ') ∧
      decimal_value [] = 0 ∧ decimal_value ('0' :: D) = decimal_value D ∧
      directive "012d".toList = some ('0', 12, 'd', []) ∧
      directive "10d".toList = some (' ', 10, 'd', []) := by
  have hw : width_acc D 0 = (decimal_value D : Int) := by
    rw [width_acc_value D hD, wrapInt32_of_lt _ (by simpa using hv)]
  refine ⟨?_, ?_, ?_, ?_, rfl, ?_, by decide, by decide⟩
  · intro hl
    rw [directive_digits D c rest hD hc hl, hw]
  · intro c1
    rw [directive_digits_long D c1 rest hD, hw]
  · unfold pad_of
    by_cases h : D.head? = some '0'
    · simp [h]
    · simp only [h, if_false, iff_false]
      decide
  · unfold pad_of
    by_cases h : D.head? = some '0'
    · simp [h]
    · simp [h]
  · simp [decimal_value]

/-- Witness of C16 at `%007q`, followed by `z`. -/
theorem directive_flag_and_width_witness :
    (∀ x ∈ ['0', '0', '7'], is_digit x = true) ∧ is_digit 'q' = false ∧
      decimal_value ['0', '0', '7'] < 2 ^ 31 ∧
      (('q' ≠ 'l' → directive (['0', '0', '7'] ++ 'q' :: ['z']) =
        some (pad_of ['0', '0', '7'], (decimal_value ['0', '0', '7'] : Int), 'q', ['z'])) ∧
      (∀ c1, directive (['0', '0', '7'] ++ 'l' :: c1 :: ['z']) =
        some (pad_of ['0', '0', '7'], (decimal_value ['0', '0', '7'] : Int), c1, ['z'])) ∧
      (pad_of ['0', '0', '7'] = '0' ↔ (['0', '0', '7'] : List Char).head? = some '0') ∧
      (pad_of ['0', '0', '7'] ≠ '0' → pad_of ['0', '0', '7'] = ' ') ∧
      decimal_value [] = 0 ∧
      decimal_value ('0' :: ['0', '0', '7']) = decimal_value ['0', '0', '7'] ∧
      directive "012d".toList = some ('0', 12, 'd', []) ∧
      directive "10d".toList = some (' ', 10, 'd', [])) :=
  ⟨by decide, by decide, by decide,
    directive_flag_and_width ['0', '0', '7'] 'q' ['z'] (by decide) (by decide) (by decide)⟩

/-- C17: the characters `str_putint` stores and the count it returns do not
depend on what the shared scratch buffer held before the call: from any two
states of the buffer and the same arguments they are the same, and so a call
of `sprintf` gives the same output and count whatever earlier calls left in
the buffer. A buffer local to each call in place of the shared one therefore
changes nothing a sequential caller can observe. -/
theorem scratch_independent (b1 b2 : Nat → Char) (str : List Char) (n base : Nat)
    (upcase sign : Bool) (pad : Char) (pad_len : Int) (format : List Char) (ap : List Arg) :
    (str_putint b1 str n base upcase sign pad pad_len).map (fun r => r.2) =
        (str_putint b2 str n base upcase sign pad pad_len).map (fun r => r.2) ∧
      sprintf b1 format ap = sprintf b2 format ap :=
  ⟨str_putint_buffer_free b1 b2 str n base upcase sign pad pad_len,
    sprintf_buffer_free b1 b2 format ap⟩

/-- C18: with the negation of a 32-bit `int` taken modulo `2 ^ 32`, for every
signed 32-bit `n` the `%d` conversion stores the canonical decimal numeral of
`n`: a `-` for a negative `n`, then the digits of `|n|`, without leading
zero, which read back as `|n|`. For a negative `n` the magnitude handed to
`str_putint`, `(unsigned)(-n)`, is `|n|`, also for `n = -2 ^ 31`, whose
magnitude is 2147483648 and whose output is `-2147483648`. -/
theorem signed_decimal (format_buf : Nat → Char) (n : Int)
    (hlo : -2 ^ 31 ≤ n) (hhi : n < 2 ^ 31) :
    sprintf format_buf "%d".toList [Arg.int n] =
        some ((if n < 0 then ['-'] else []) ++ numeral 10 false n.natAbs ++ [NUL],
          (if n < 0 then 1 else 0) + (numeral 10 false n.natAbs).length) ∧
      (n < 0 → toUInt32 (wrapInt32 (-(wrapInt32 n))) = n.natAbs) ∧
      parse_number 10 (numeral 10 false n.natAbs) = some n.natAbs ∧
      (n ≠ 0 → (numeral 10 false n.natAbs).head? ≠ some '0') ∧
      toUInt32 (wrapInt32 (-(wrapInt32 (-2147483648)))) = 2147483648 ∧
      sprintf format_buf "%d".toList [Arg.int (-2147483648)] =
        some ("-2147483648".toList ++ [NUL], 11) := by
  have hlo1 : -2147483648 ≤ n := by simpa using hlo
  have hhi1 : n < 2147483648 := by simpa using hhi
  have hfmt : "%d".toList = '%' :: decimal 0 ++ ['d'] := by decide
  have hneg : ∀ v : Int, -2147483648 ≤ v → v < 0 →
      sprintf format_buf "%d".toList [Arg.int v] =
        some ('-' :: numeral 10 false v.natAbs ++ [NUL],
          1 + (numeral 10 false v.natAbs).length) := by
    intro v h1 h2
    rw [hfmt, sprintf_space_neg format_buf v 0 h1 h2 (by decide)]
    simp only [Nat.zero_sub, List.replicate_zero, List.nil_append, Option.some.injEq,
      Prod.mk.injEq, true_and]
    omega
  refine ⟨?_, ?_, parse_number_numeral 10 false _ (by decide) (by decide), ?_, by decide, ?_⟩
  · by_cases h : n < 0
    · rw [if_pos h, if_pos h, hneg n hlo1 h]
      rfl
    · rw [if_neg h, if_neg h]
      obtain ⟨k, rfl⟩ : ∃ k : Nat, n = (k : Int) := ⟨n.toNat, by omega⟩
      have hk : k < 2147483648 := by omega
      have := sprintf_padded format_buf 'd' k 0 10 false (Arg.int (k : Int)) (by decide)
        (by decide) (by decide) (by decide) (by decide)
        (conversion_d_nonneg k ' ' (0 : Nat) _ [] hk rfl)
      rw [hfmt, this]
      simp
  · intro h
    unfold toUInt32 wrapInt32
    omega
  · intro h0
    have hne : n.natAbs ≠ 0 := by omega
    obtain ⟨d, hd0, hd, hh⟩ := numeral_head 10 false n.natAbs (by decide) hne
    rw [hh]
    intro h
    exact digit_char_ne_zero false d hd0 (by omega) (Option.some.inj h)
  · rw [hneg (-2147483648) (by decide) (by decide)]
    decide

/-- Witness of C18 at the value -2147483648. -/
theorem signed_decimal_witness :
    -2 ^ 31 ≤ (-2147483648 : Int) ∧ (-2147483648 : Int) < 2 ^ 31 ∧
      (sprintf buf0 "%d".toList [Arg.int (-2147483648)] =
        some ((if (-2147483648 : Int) < 0 then ['-'] else []) ++
          numeral 10 false (-2147483648 : Int).natAbs ++ [NUL],
          (if (-2147483648 : Int) < 0 then 1 else 0) +
            (numeral 10 false (-2147483648 : Int).natAbs).length) ∧
      ((-2147483648 : Int) < 0 →
        toUInt32 (wrapInt32 (-(wrapInt32 (-2147483648)))) = (-2147483648 : Int).natAbs) ∧
      parse_number 10 (numeral 10 false (-2147483648 : Int).natAbs) =
        some (-2147483648 : Int).natAbs ∧
      ((-2147483648 : Int) ≠ 0 →
        (numeral 10 false (-2147483648 : Int).natAbs).head? ≠ some '0') ∧
      toUInt32 (wrapInt32 (-(wrapInt32 (-2147483648)))) = 2147483648 ∧
      sprintf buf0 "%d".toList [Arg.int (-2147483648)] =
        some ("-2147483648".toList ++ [NUL], 11)) :=
  ⟨by decide, by decide, signed_decimal buf0 (-2147483648) (by decide) (by decide)⟩

/-- C20: formatting composes over concatenation at a directive boundary: for
a format `f1` that does not end inside a directive, a format `f2`, and an
argument list matching `f1` followed by `f2`, the scan of `f1` alone takes the
arguments of its own directives, and the output for `f1` followed by `f2` is
the output for `f1` followed by the output for `f2` with the arguments `f1`
left, the count being the sum of the two counts. -/
theorem sprintf_concat (format_buf : Nat → Char) (f1 f2 : List Char) (ap : List Arg)
    (ks1 : List Kind) (hnul : NUL ∉ f1) (h1 : expects Mode.text f1 = some ks1)
    (hm : Matches (f1 ++ f2) ap) :
    ∃ (out1 out2 : List Char) (st1 : State),
      run ⟨f1, [], 0, ap, format_buf⟩ = some st1 ∧ st1.s = [] ∧
      st1.ap = ap.drop ks1.length ∧
      sprintf format_buf f1 ap = some (out1 ++ [NUL], out1.length) ∧
      (∀ b2, sprintf b2 f2 (ap.drop ks1.length) = some (out2 ++ [NUL], out2.length)) ∧
      sprintf format_buf (f1 ++ f2) ap =
        some (out1 ++ out2 ++ [NUL], out1.length + out2.length) := by
  obtain ⟨ks, hk, ht⟩ := hm
  rw [expects_append f1 f2 Mode.text ks1 hnul h1] at hk
  cases hk2 : expects Mode.text f2 with
  | none => rw [hk2] at hk; cases hk
  | some ks2 =>
    rw [hk2] at hk
    simp only [Option.map_some', Option.some.injEq] at hk
    subst hk
    obtain ⟨ht1, ht2⟩ := take_append_split ks1 ks2 _ ht
    rw [← List.map_drop] at ht2
    obtain ⟨st1, hrun1, hap1⟩ := run_matches f1.length ⟨f1, [], 0, ap, format_buf⟩ ks1
      (Nat.le_refl _) h1 ht1
    simp only at hap1
    have hs1 : st1.s = [] := run_final _ _ _ hrun1 hnul
    obtain ⟨out1, ho1, hl1⟩ := loop_out _ _ _ hrun1
    simp only [List.nil_append, Nat.zero_add] at ho1 hl1
    obtain ⟨st2, hrun2, _⟩ := run_matches f2.length
      ⟨f2, [], 0, ap.drop ks1.length, format_buf⟩ ks2 (Nat.le_refl _) hk2 ht2
    obtain ⟨out2, ho2, hl2⟩ := loop_out _ _ _ hrun2
    simp only [List.nil_append, Nat.zero_add] at ho2 hl2
    have happ := run_append f1.length ⟨f1, [], 0, ap, format_buf⟩ st1 f2 (Nat.le_refl _)
      hnul hrun1
    simp only at happ
    have hsh := run_shift st1.str st1.len ⟨f2, [], 0, ap.drop ks1.length, format_buf⟩
      { st1 with s := f2 } ⟨rfl, by simp, by simp, hap1⟩
    rw [hrun2] at hsh
    refine ⟨out1, out2, st1, hrun1, hs1, hap1, ?_, ?_, ?_⟩
    · rw [sprintf_of_run _ _ _ _ hrun1, ho1, hl1]
    · intro b2
      rw [sprintf_buffer_free b2 format_buf, sprintf_of_run _ _ _ _ hrun2, ho2, hl2]
    · rcases hsh with ⟨h, _⟩ | ⟨x, x1, hx, hx1, hrel⟩
      · cases h
      · cases hx
        rw [sprintf_of_run format_buf (f1 ++ f2) ap x1 (happ.trans hx1), hrel.str_eq,
          hrel.len_eq, ho1, hl1, ho2, hl2]

/-- Witness of C20 at `a=%d,` followed by `b=%s.` with an `int` and a string. -/
theorem sprintf_concat_witness :
    NUL ∉ "a=%d,".toList ∧ expects Mode.text "a=%d,".toList = some [Kind.int] ∧
      Matches ("a=%d,".toList ++ "b=%s.".toList) [Arg.int 5, Arg.str "ok".toList] ∧
      ∃ (out1 out2 : List Char) (st1 : State),
        run ⟨"a=%d,".toList, [], 0, [Arg.int 5, Arg.str "ok".toList], buf0⟩ = some st1 ∧
        st1.s = [] ∧
        st1.ap = ([Arg.int 5, Arg.str "ok".toList] : List Arg).drop [Kind.int].length ∧
        sprintf buf0 "a=%d,".toList [Arg.int 5, Arg.str "ok".toList] =
          some (out1 ++ [NUL], out1.length) ∧
        (∀ b2, sprintf b2 "b=%s.".toList
            (([Arg.int 5, Arg.str "ok".toList] : List Arg).drop [Kind.int].length) =
          some (out2 ++ [NUL], out2.length)) ∧
        sprintf buf0 ("a=%d,".toList ++ "b=%s.".toList) [Arg.int 5, Arg.str "ok".toList] =
          some (out1 ++ out2 ++ [NUL], out1.length + out2.length) :=
  ⟨by decide, by decide, ⟨[Kind.int, Kind.str], by decide, by decide⟩,
    sprintf_concat buf0 "a=%d,".toList "b=%s.".toList [Arg.int 5, Arg.str "ok".toList]
      [Kind.int] (by decide) (by decide) ⟨[Kind.int, Kind.str], by decide, by decide⟩⟩

/-- C19: let `f` be a format string, its terminator right after it and the
bytes `tail` after the terminator. `f` ends inside a directive (it is a part
that does not, then `%`, digits and possibly `l`, and nothing more) exactly
when the directive grammar gives no reading of it. In that case the scan
takes the terminator as the conversion character, stores `%` and NUL and
counts 2 for them, and goes on scanning the bytes after the terminator; with
nothing known after the terminator the scan leaves the listed bytes. In the
other case the scan stops with the format pointer on the terminator, and is
the scan of the listed bytes of `f` alone: no byte after the terminator is
read. -/
theorem overrun_iff_open_directive (format_buf : Nat → Char) (f tail : List Char)
    (ap : List Arg) (hnul : NUL ∉ f) :
    (expects Mode.text f = none ↔
        ∃ f0 D L, f = f0 ++ ('%' :: D ++ L) ∧ (expects Mode.text f0).isSome = true ∧
          (∀ x ∈ D, is_digit x = true) ∧ (L = [] ∨ L = ['l'])) ∧
      (∀ f0 D L ks0, f = f0 ++ ('%' :: D ++ L) → expects Mode.text f0 = some ks0 →
        (∀ x ∈ D, is_digit x = true) → (L = [] ∨ L = ['l']) →
        (ap.map Arg.kind).take ks0.length = ks0 →
        ∃ st0, run ⟨f0, [], 0, ap, format_buf⟩ = some st0 ∧
          run ⟨f ++ NUL :: tail, [], 0, ap, format_buf⟩ =
            run ⟨tail, st0.str ++ ['%', NUL], st0.len + 2, st0.ap, st0.format_buf⟩ ∧
          run ⟨f, [], 0, ap, format_buf⟩ = none) ∧
      (∀ ks, expects Mode.text f = some ks → (ap.map Arg.kind).take ks.length = ks →
        ∃ st, run ⟨f, [], 0, ap, format_buf⟩ = some st ∧ st.s = [] ∧
          run ⟨f ++ NUL :: tail, [], 0, ap, format_buf⟩ = some { st with s := NUL :: tail }) := by
  refine ⟨⟨?_, ?_⟩, ?_, ?_⟩
  · intro h
    rcases expects_none_form f Mode.text hnul h with ⟨hm, _⟩ | ⟨hm, _⟩ | h3
    · cases hm
    · cases hm
    · exact h3
  · rintro ⟨f0, D, L, hf, hsome, hD, hL⟩
    cases h0 : expects Mode.text f0 with
    | none => rw [h0] at hsome; cases hsome
    | some ks0 =>
      have hn0 : NUL ∉ f0 := fun hx => hnul (by rw [hf]; exact List.mem_append_left _ hx)
      rw [hf, expects_append f0 _ Mode.text ks0 hn0 h0, expects_open D L hD hL]
      rfl
  · intro f0 D L ks0 hf h0 hD hL ht
    have hn0 : NUL ∉ f0 := fun hx => hnul (by rw [hf]; exact List.mem_append_left _ hx)
    obtain ⟨st0, hrun0, _⟩ := run_matches f0.length ⟨f0, [], 0, ap, format_buf⟩ ks0
      (Nat.le_refl _) h0 ht
    refine ⟨st0, hrun0, ?_, ?_⟩
    · have happ := run_append f0.length ⟨f0, [], 0, ap, format_buf⟩ st0
        ('%' :: (D ++ L ++ NUL :: tail)) (Nat.le_refl _) hn0 hrun0
      simp only at happ
      have e : f ++ NUL :: tail = f0 ++ '%' :: (D ++ L ++ NUL :: tail) := by
        rw [hf]; simp
      rw [e, happ, run_directive _ (D ++ L ++ NUL :: tail) tail _ _ NUL rfl
        (directive_at_nul D L tail hD hL), conversion_nul]
      simp only [State.putc, str_putc, List.append_assoc, List.singleton_append, Nat.add_assoc]
    · have happ := run_append f0.length ⟨f0, [], 0, ap, format_buf⟩ st0
        ('%' :: (D ++ L)) (Nat.le_refl _) hn0 hrun0
      simp only at happ
      have e : f = f0 ++ '%' :: (D ++ L) := by rw [hf]; rfl
      rw [e, happ, run_cons _ '%' (D ++ L) rfl (by decide)]
      unfold sprintf_step
      simp only [if_true, directive_open D L hD hL]
  · intro ks hk ht
    obtain ⟨st, hrun, _⟩ := run_matches f.length ⟨f, [], 0, ap, format_buf⟩ ks
      (Nat.le_refl _) hk ht
    have hs : st.s = [] := run_final _ _ _ hrun hnul
    have happ := run_append f.length ⟨f, [], 0, ap, format_buf⟩ st (NUL :: tail)
      (Nat.le_refl _) hnul hrun
    simp only at happ
    exact ⟨st, hrun, hs, by rw [happ]; exact run_nul _ tail rfl⟩

/-- Witness of C19 at the format `ab%05`, which ends inside a directive, with
the bytes `xy` after its terminator. -/
theorem overrun_iff_open_directive_witness :
    NUL ∉ "ab%05".toList ∧
      ((expects Mode.text "ab%05".toList = none ↔
        ∃ f0 D L, "ab%05".toList = f0 ++ ('%' :: D ++ L) ∧
          (expects Mode.text f0).isSome = true ∧
          (∀ x ∈ D, is_digit x = true) ∧ (L = [] ∨ L = ['l'])) ∧
      (∀ f0 D L ks0, "ab%05".toList = f0 ++ ('%' :: D ++ L) →
        expects Mode.text f0 = some ks0 →
        (∀ x ∈ D, is_digit x = true) → (L = [] ∨ L = ['l']) →
        (([] : List Arg).map Arg.kind).take ks0.length = ks0 →
        ∃ st0, run ⟨f0, [], 0, [], buf0⟩ = some st0 ∧
          run ⟨"ab%05".toList ++ NUL :: "xy".toList, [], 0, [], buf0⟩ =
            run ⟨"xy".toList, st0.str ++ ['%', NUL], st0.len + 2, st0.ap, st0.format_buf⟩ ∧
          run ⟨"ab%05".toList, [], 0, [], buf0⟩ = none) ∧
      (∀ ks, expects Mode.text "ab%05".toList = some ks →
        (([] : List Arg).map Arg.kind).take ks.length = ks →
        ∃ st, run ⟨"ab%05".toList, [], 0, [], buf0⟩ = some st ∧ st.s = [] ∧
          run ⟨"ab%05".toList ++ NUL :: "xy".toList, [], 0, [], buf0⟩ =
            some { st with s := NUL :: "xy".toList })) :=
  ⟨by decide, overrun_iff_open_directive buf0 "ab%05".toList "xy".toList [] (by decide)⟩

end QmSprintf
